import Mathlib

/-!
# rocSPARSE device primitives (`library/src/include/common.h`)

A shallow embedding of the reduction, arithmetic and atomic helpers of
`common.h`, together with the properties stated about them.

Conventions of the embedding:

* a lane index, a block size and a wavefront width are natural numbers;
* element values of type `T` / `rocsparse_int` are mathematical integers
  (signed overflow is undefined in the source, so only overflow-free runs are
  described); where the source wraps on purpose (`rocsparse_mul24`) the wrap is
  written out with explicit moduli;
* a block-shared buffer and a per-lane register file are functions from the
  lane index to the value held there;
* hardware cross-lane primitives (`__shfl_down_sync`, `__hip_ds_swizzle`,
  `__hip_move_dpp`, `__llvm_amdgcn_readlane`) are not part of the file; they
  are given by their documented lane-selection rule;
* floats appear through their bit patterns, with the addition on patterns as a
  parameter; where a concrete addition is needed it is binary32 addition of
  integer-valued floats (exact sum, rounded to nearest with ties to even);
* concurrent callers of the atomic add are an interleaving of their accesses to
  the shared location, one read or one compare-and-swap per step.
-/

namespace RocSparse

/-! ## Block-level tree reduction -/

/-- Block-shared buffer `data`, indexed by lane. -/
abbrev Buffer := Nat → Int

/-- The guarded statement of one lane `i` at threshold `h`:
`if(i < h && i + h < BLOCKSIZE) { data[i] = op(data[i], data[i + h]); }`,
with `op` being `+` for the sum kernel and `max` for the maximum kernel. -/
def lane_step (op : Int → Int → Int) (BLOCKSIZE h i : Nat) (data : Buffer) : Buffer :=
  if i < h ∧ i + h < BLOCKSIZE then
    Function.update data i (op (data i) (data (i + h)))
  else data

/-- The lanes listed in `sched` execute their guarded statement one after the
other, in that order. -/
def run_lanes (op : Int → Int → Int) (BLOCKSIZE h : Nat) (sched : List Nat)
    (data : Buffer) : Buffer :=
  sched.foldl (fun d i => lane_step op BLOCKSIZE h i d) data

/-- One step of the block: every lane `0 .. BLOCKSIZE-1` executes the guarded
statement, then all lanes meet at `__syncthreads()`. -/
def block_step (op : Int → Int → Int) (BLOCKSIZE h : Nat) (data : Buffer) : Buffer :=
  run_lanes op BLOCKSIZE h (List.range BLOCKSIZE) data

/-- The ten thresholds of the unrolled kernel, in source order. -/
def thresholds : List Nat := [512, 256, 128, 64, 32, 16, 8, 4, 2, 1]

/-- The unrolled body shared by both kernels: for each threshold `h`, in order,
`if(BLOCKSIZE > h) { <guarded statement>; __syncthreads(); }`. -/
def blockreduce (op : Int → Int → Int) (BLOCKSIZE : Nat) (data : Buffer) : Buffer :=
  thresholds.foldl
    (fun d h => if BLOCKSIZE > h then block_step op BLOCKSIZE h d else d) data

/-- Kernel `rocsparse_blockreduce_sum<T, BLOCKSIZE>` run by all lanes of the block. -/
def rocsparse_blockreduce_sum (BLOCKSIZE : Nat) (data : Buffer) : Buffer :=
  blockreduce (fun a b => a + b) BLOCKSIZE data

/-- Kernel `rocsparse_blockreduce_max<T, BLOCKSIZE>` run by all lanes of the block. -/
def rocsparse_blockreduce_max (BLOCKSIZE : Nat) (data : Buffer) : Buffer :=
  blockreduce (fun a b => max a b) BLOCKSIZE data

/-- The value `t` is the maximum of the first `w` slots of `d`: it bounds each of
them and is attained by one of them. -/
def IsMaxOfFirst (w : Nat) (d : Buffer) (t : Int) : Prop :=
  (∀ i, i < w → d i ≤ t) ∧ ∃ j, j < w ∧ d j = t

/-! ## Cross-lane group reduction, register-shuffle codepath -/

/-- Register file of a lockstep group of lanes: the value of one variable on
each lane. -/
abbrev Regs := Nat → Int

namespace NVCC

/-- Number of lanes of a warp on the register-shuffle codepath. -/
def warpSize : Nat := 32

/-- The primitive `__shfl_down_sync(0xffffffff, x, d)`: lane `l` receives the
value of lane `l + d`, or keeps its own value when `l + d` is outside the warp. -/
def shfl_down_sync (x : Regs) (d : Nat) : Regs :=
  fun l => if l + d < warpSize then x (l + d) else x l

/-- The loop `for(i = ...; i > 0; i >>= 1) { sum += __shfl_down_sync(0xffffffff, sum, i); }`
entered with loop variable `i`. The first argument bounds the number of
iterations; it is never exhausted when it is at least `i`
(`wfreduce_sum_loop_fuel`). -/
def wfreduce_sum_loop : Nat → Nat → Regs → Regs
  | 0, _, sum => sum
  | fuel + 1, i, sum =>
    if i > 0 then
      wfreduce_sum_loop fuel (i >>> 1) (fun l => sum l + shfl_down_sync sum i l)
    else sum

/-- Shuffle codepath of `rocsparse_wfreduce_sum<WFSIZE, T>`: the loop starts at
`i = WFSIZE >> 1`; the result is what each lane returns. -/
def rocsparse_wfreduce_sum (WFSIZE : Nat) (sum : Regs) : Regs :=
  wfreduce_sum_loop (WFSIZE >>> 1) (WFSIZE >>> 1) sum

/-- The loop of the combined reduction, on the pair `(*sum, *maximum)`:
`*maximum = max(*maximum, __shfl_down_sync(0xffffffff, *maximum, i));`
`*sum += __shfl_down_sync(0xffffffff, *sum, i);`. -/
def wfreduce_sum_max_loop : Nat → Nat → Regs × Regs → Regs × Regs
  | 0, _, st => st
  | fuel + 1, i, st =>
    if i > 0 then
      wfreduce_sum_max_loop fuel (i >>> 1)
        (fun l => st.1 l + shfl_down_sync st.1 i l,
         fun l => max (st.2 l) (shfl_down_sync st.2 i l))
    else st

/-- Shuffle codepath of `rocsparse_wfreduce_sum_max<WFSIZE>`: the pair of
register files `(*sum, *maximum)` after the call. -/
def rocsparse_wfreduce_sum_max (WFSIZE : Nat) (sum maximum : Regs) : Regs × Regs :=
  wfreduce_sum_max_loop (WFSIZE >>> 1) (WFSIZE >>> 1) (sum, maximum)

/-- A maximum-only reduction that uses the exchange steps of the shuffle loop:
`for(i = ...; i > 0; i >>= 1) { m = max(m, __shfl_down_sync(0xffffffff, m, i)); }`.
It is not in the source; it is the reference the combined reduction is
compared with. -/
def wfreduce_max_only_loop : Nat → Nat → Regs → Regs
  | 0, _, m => m
  | fuel + 1, i, m =>
    if i > 0 then
      wfreduce_max_only_loop fuel (i >>> 1) (fun l => max (m l) (shfl_down_sync m i l))
    else m

/-- The maximum-only reference reduction for width `WFSIZE`. -/
def wfreduce_max_only (WFSIZE : Nat) (maximum : Regs) : Regs :=
  wfreduce_max_only_loop (WFSIZE >>> 1) (WFSIZE >>> 1) maximum

end NVCC

/-! ## Cross-lane group reduction, direct lane-exchange codepath -/

namespace HCC

/-- Source lane selected by `__hip_ds_swizzle(x, pattern)` for a lane, by the
hardware rule of `ds_swizzle_b32`, which works inside each group of 32 lanes:
with bit 15 of the pattern set, quad-permute mode (lane `i` of a quad reads the
quad lane given by the two pattern bits at position `2 * (i mod 4)`); otherwise
bit-mask mode, `((i AND and_mask) OR or_mask) XOR xor_mask` with the masks in
pattern bits 4..0, 9..5 and 14..10. -/
def ds_swizzle_src (pattern lane : Nat) : Nat :=
  let i := lane % 32
  let j :=
    if (pattern >>> 15) &&& 1 = 1 then
      (i &&& 0x1c) ||| ((pattern >>> (2 * (i &&& 3))) &&& 3)
    else
      ((i &&& (pattern &&& 0x1f)) ||| ((pattern >>> 5) &&& 0x1f)) ^^^ ((pattern >>> 10) &&& 0x1f)
  lane / 32 * 32 + j

/-- The primitive `__hip_ds_swizzle(x, pattern)` with all lanes active: every
lane receives the register of its source lane. -/
def ds_swizzle {α : Type} (x : Nat → α) (pattern : Nat) : Nat → α :=
  fun l => x (ds_swizzle_src pattern l)

/-- The primitive `__llvm_amdgcn_readlane(x, lane)`: every lane receives the
register of the given lane. -/
def readlane {α : Type} (x : Nat → α) (lane : Nat) : Nat → α :=
  fun _ => x lane

/-- Swizzle codepath of `rocsparse_wfreduce_sum<WFSIZE>(float sum)`, for all lanes
of a wavefront at once. The union `flt_b32_t` gives two views (`val`, `b32`) of
the same 32 bits, and the exchange moves `b32` unchanged, so a register is
represented by its value in `α`; `+` is the addition of `α`. -/
def rocsparse_wfreduce_sum_float {α : Type} [Add α] (WFSIZE : Nat) (sum : Nat → α) : Nat → α :=
  let temp_sum := sum
  let temp_sum := if WFSIZE > 1 then
      (fun l => temp_sum l + ds_swizzle temp_sum 0x80b1 l) else temp_sum
  let temp_sum := if WFSIZE > 2 then
      (fun l => temp_sum l + ds_swizzle temp_sum 0x804e l) else temp_sum
  let temp_sum := if WFSIZE > 4 then
      (fun l => temp_sum l + ds_swizzle temp_sum 0x101f l) else temp_sum
  let temp_sum := if WFSIZE > 8 then
      (fun l => temp_sum l + ds_swizzle temp_sum 0x201f l) else temp_sum
  let temp_sum := if WFSIZE > 16 then
      (fun l => temp_sum l + ds_swizzle temp_sum 0x401f l) else temp_sum
  let temp_sum := if WFSIZE > 32 then
      (fun l => temp_sum l + readlane temp_sum 32 l) else temp_sum
  temp_sum

/-- Source lane of a DPP control word inside a wavefront of 64 lanes made of four
rows of 16 lanes: `0x111 .. 0x11f` is `row_shr:n` (lane `l` reads lane `l - n` of
its row), `0x142` is `row_bcast15` (a row reads lane 15 of the row before it),
`0x143` is `row_bcast31` (rows 2 and 3 read lane 31). `none` when there is no
such lane. -/
def dpp_src (dpp_ctrl lane : Nat) : Option Nat :=
  if 0x111 ≤ dpp_ctrl ∧ dpp_ctrl ≤ 0x11f then
    if dpp_ctrl - 0x110 ≤ lane % 16 then some (lane - (dpp_ctrl - 0x110)) else none
  else if dpp_ctrl = 0x142 then
    if 1 ≤ lane / 16 then some (lane / 16 * 16 - 1) else none
  else if dpp_ctrl = 0x143 then
    if 2 ≤ lane / 16 then some 31 else none
  else none

/-- The primitive `__hip_move_dpp(src, dpp_ctrl, row_mask, bank_mask, 0)`: a lane
whose row is enabled in `row_mask`, whose bank of four lanes is enabled in
`bank_mask` and whose source lane exists receives the source lane's register.
Every other lane is not written; what it then yields is not specified and is
given by `undef`. -/
def hip_move_dpp (undef : Regs) (src : Regs) (dpp_ctrl row_mask bank_mask : Nat) : Regs :=
  fun l =>
    if row_mask.testBit (l / 16) ∧ bank_mask.testBit (l % 16 / 4) then
      match dpp_src dpp_ctrl l with
      | some s => src s
      | none => undef l
    else undef l

/-- One guarded block of the DPP reduction on the pair `(*sum, *maximum)`:
`*maximum = max(*maximum, __hip_move_dpp(*maximum, ...));`
`*sum += __hip_move_dpp(*sum, ...);`. -/
def dpp_step (undef_sum undef_max : Regs) (dpp_ctrl row_mask bank_mask : Nat)
    (st : Regs × Regs) : Regs × Regs :=
  (fun l => st.1 l + hip_move_dpp undef_sum st.1 dpp_ctrl row_mask bank_mask l,
   fun l => max (st.2 l) (hip_move_dpp undef_max st.2 dpp_ctrl row_mask bank_mask l))

/-- DPP codepath of `rocsparse_wfreduce_sum_max<WFSIZE>`: the pair of register
files `(*sum, *maximum)` after the call. `undef_sum k` and `undef_max k` are the
unspecified values of the unwritten lanes in the `k`-th guarded block. -/
def rocsparse_wfreduce_sum_max (WFSIZE : Nat) (undef_sum undef_max : Nat → Regs)
    (sum maximum : Regs) : Regs × Regs :=
  let st := (sum, maximum)
  let st := if WFSIZE > 1 then dpp_step (undef_sum 0) (undef_max 0) 0x111 0xf 0xf st else st
  let st := if WFSIZE > 2 then dpp_step (undef_sum 1) (undef_max 1) 0x112 0xf 0xf st else st
  let st := if WFSIZE > 4 then dpp_step (undef_sum 2) (undef_max 2) 0x114 0xf 0xe st else st
  let st := if WFSIZE > 8 then dpp_step (undef_sum 3) (undef_max 3) 0x118 0xf 0xc st else st
  let st := if WFSIZE > 16 then dpp_step (undef_sum 4) (undef_max 4) 0x142 0xa 0xf st else st
  let st := if WFSIZE > 32 then dpp_step (undef_sum 5) (undef_max 5) 0x143 0xc 0xf st else st
  st

/-- A single-accumulator reduction that uses the exchange steps of the DPP
codepath with the combining operation `op`. It is not in the source; it is the
reference the combined reduction is compared with. -/
def wfreduce_dpp_only (op : Int → Int → Int) (WFSIZE : Nat) (undef : Nat → Regs)
    (x : Regs) : Regs :=
  let x := if WFSIZE > 1 then (fun l => op (x l) (hip_move_dpp (undef 0) x 0x111 0xf 0xf l)) else x
  let x := if WFSIZE > 2 then (fun l => op (x l) (hip_move_dpp (undef 1) x 0x112 0xf 0xf l)) else x
  let x := if WFSIZE > 4 then (fun l => op (x l) (hip_move_dpp (undef 2) x 0x114 0xf 0xe l)) else x
  let x := if WFSIZE > 8 then (fun l => op (x l) (hip_move_dpp (undef 3) x 0x118 0xf 0xc l)) else x
  let x := if WFSIZE > 16 then (fun l => op (x l) (hip_move_dpp (undef 4) x 0x142 0xa 0xf l)) else x
  let x := if WFSIZE > 32 then (fun l => op (x l) (hip_move_dpp (undef 5) x 0x143 0xc 0xf l)) else x
  x

/-- The union `dbl_b32_t { double val; uint32_t b32[2]; }`: eight bytes seen
either as one 64-bit pattern (`val`) or as the two 32-bit words `b32[0]` (low
half) and `b32[1]` (high half). -/
structure dbl_b32 where
  /-- Word `b32[0]`. -/
  b32_0 : Nat
  /-- Word `b32[1]`. -/
  b32_1 : Nat
deriving DecidableEq

/-- Writing the member `val` with the double whose 64-bit pattern is `p`. -/
def dbl_b32.of_val (p : Nat) : dbl_b32 :=
  ⟨p % 2 ^ 32, p / 2 ^ 32 % 2 ^ 32⟩

/-- Reading the member `val`: the 64-bit pattern made of the two words. -/
def dbl_b32.val (u : dbl_b32) : Nat :=
  u.b32_0 + 2 ^ 32 * u.b32_1

/-- The two statements
`upper_sum.b32[0] = __hip_ds_swizzle(temp_sum.b32[0], pattern);`
`upper_sum.b32[1] = __hip_ds_swizzle(temp_sum.b32[1], pattern);`
on every lane: the `upper_sum` of each lane. -/
def swizzle_halves (temp_sum : Nat → dbl_b32) (pattern : Nat) : Nat → dbl_b32 :=
  fun l =>
    { b32_0 := ds_swizzle (fun k => (temp_sum k).b32_0) pattern l
      b32_1 := ds_swizzle (fun k => (temp_sum k).b32_1) pattern l }

/-- The two statements
`upper_sum.b32[0] = __llvm_amdgcn_readlane(temp_sum.b32[0], 32);`
`upper_sum.b32[1] = __llvm_amdgcn_readlane(temp_sum.b32[1], 32);`
on every lane. -/
def readlane_halves (temp_sum : Nat → dbl_b32) (lane : Nat) : Nat → dbl_b32 :=
  fun l =>
    { b32_0 := readlane (fun k => (temp_sum k).b32_0) lane l
      b32_1 := readlane (fun k => (temp_sum k).b32_1) lane l }

/-- The statement `temp_sum.val += upper_sum.val;` on every lane, where `fadd` is
the addition of doubles on their 64-bit patterns. -/
def add_upper (fadd : Nat → Nat → Nat) (temp_sum upper_sum : Nat → dbl_b32) : Nat → dbl_b32 :=
  fun l => dbl_b32.of_val (fadd (temp_sum l).val (upper_sum l).val)

/-- Swizzle codepath of `rocsparse_wfreduce_sum<WFSIZE>(double sum)`, on the 64-bit
patterns of the doubles, for all lanes of a wavefront at once. `fadd` is the
addition of doubles on their patterns. -/
def rocsparse_wfreduce_sum_double (fadd : Nat → Nat → Nat) (WFSIZE : Nat)
    (sum : Nat → Nat) : Nat → Nat :=
  let temp_sum : Nat → dbl_b32 := fun l => dbl_b32.of_val (sum l)
  let temp_sum := if WFSIZE > 1 then
      add_upper fadd temp_sum (swizzle_halves temp_sum 0x80b1) else temp_sum
  let temp_sum := if WFSIZE > 2 then
      add_upper fadd temp_sum (swizzle_halves temp_sum 0x804e) else temp_sum
  let temp_sum := if WFSIZE > 4 then
      add_upper fadd temp_sum (swizzle_halves temp_sum 0x101f) else temp_sum
  let temp_sum := if WFSIZE > 8 then
      add_upper fadd temp_sum (swizzle_halves temp_sum 0x201f) else temp_sum
  let temp_sum := if WFSIZE > 16 then
      add_upper fadd temp_sum (swizzle_halves temp_sum 0x401f) else temp_sum
  let temp_sum := if WFSIZE > 32 then
      add_upper fadd temp_sum (readlane_halves temp_sum 32) else temp_sum
  fun l => (temp_sum l).val

/-- A wavefront sum that moves each 64-bit pattern between lanes in one piece,
with the exchange steps of the swizzle codepath. It is not in the source; it is
the reference the split-halves transport of `rocsparse_wfreduce_sum_double` is
compared with. -/
def wfreduce_sum_whole_pattern (fadd : Nat → Nat → Nat) (WFSIZE : Nat)
    (sum : Nat → Nat) : Nat → Nat :=
  let x := sum
  let x := if WFSIZE > 1 then (fun l => fadd (x l) (ds_swizzle x 0x80b1 l)) else x
  let x := if WFSIZE > 2 then (fun l => fadd (x l) (ds_swizzle x 0x804e l)) else x
  let x := if WFSIZE > 4 then (fun l => fadd (x l) (ds_swizzle x 0x101f l)) else x
  let x := if WFSIZE > 8 then (fun l => fadd (x l) (ds_swizzle x 0x201f l)) else x
  let x := if WFSIZE > 16 then (fun l => fadd (x l) (ds_swizzle x 0x401f l)) else x
  let x := if WFSIZE > 32 then (fun l => fadd (x l) (readlane x 32 l)) else x
  x

end HCC

/-- A lane and its partner `p` sit in the two halves of one aligned group of
`m2 = 2m` lanes. -/
def Halves (m m2 l p : Nat) : Prop :=
  (l / m * m = l / m2 * m2 ∧ p / m * m = l / m2 * m2 + m) ∨
  (l / m * m = l / m2 * m2 + m ∧ p / m * m = l / m2 * m2)

/-! ## Arithmetic helpers -/

/-- The value of an `int32_t` that holds `z` modulo `2^32` (two's complement). -/
def wrap_int32 (z : Int) : Int := (z + 2 ^ 31) % 2 ^ 32 - 2 ^ 31

/-- The value of an `int64_t` that holds `z` modulo `2^64` (two's complement). -/
def wrap_int64 (z : Int) : Int := (z + 2 ^ 63) % 2 ^ 64 - 2 ^ 63

/-- Overload `rocsparse_mul24(int32_t x, int32_t y)`:
`((x << 8) >> 8) * ((y << 8) >> 8)`. The left shift keeps the low 32 bits, the
right shift of a signed value is arithmetic (floor division), and the product
keeps the low 32 bits. -/
def rocsparse_mul24_int32 (x y : Int) : Int :=
  wrap_int32 ((wrap_int32 (x * 2 ^ 8) / 2 ^ 8) * (wrap_int32 (y * 2 ^ 8) / 2 ^ 8))

/-- Overload `rocsparse_mul24(int64_t x, int64_t y)`:
`((x << 40) >> 40) * ((y << 40) >> 40)`, on 64-bit registers. -/
def rocsparse_mul24_int64 (x y : Int) : Int :=
  wrap_int64 ((wrap_int64 (x * 2 ^ 40) / 2 ^ 40) * (wrap_int64 (y * 2 ^ 40) / 2 ^ 40))

/-- The helper `rocsparse_mad24(x, y, z)`, `rocsparse_mul24(x, y) + z`, when
`rocsparse_int` is `int32_t`. -/
def rocsparse_mad24_int32 (x y z : Int) : Int :=
  wrap_int32 (rocsparse_mul24_int32 x y + z)

/-- The helper `rocsparse_mad24(x, y, z)`, `rocsparse_mul24(x, y) + z`, when
`rocsparse_int` is `int64_t`. -/
def rocsparse_mad24_int64 (x y z : Int) : Int :=
  wrap_int64 (rocsparse_mul24_int64 x y + z)

/-! ## Atomic add by compare-and-swap -/

/-- The primitive `atomicCAS(address, compare, val)` on a location that holds
`mem`: it returns the old content, and the content afterwards is `val` when the
old content equals `compare` and is unchanged otherwise. -/
def atomicCAS (mem compare val : Nat) : Nat × Nat :=
  (mem, if mem = compare then val else mem)

/-- One iteration of the `do { ... } while(atomicCAS(...) != prev_val);` loop of
`rocsparse_atomic_add`, on bit patterns:
`prev_val = __float_as_uint(*ptr); new_val = __float_as_uint(val + *ptr);`
followed by the compare-and-swap. `fadd a b` is the pattern of the sum of the
floats with patterns `a` and `b`. The location is read three times, and other
writers may change it in between: `read1` and `read2` are the patterns the two
plain reads `*ptr` see, `mem` is the pattern the location holds when the
compare-and-swap runs. The result is whether the loop exits and the pattern the
location holds after the compare-and-swap. -/
def atomic_add_iteration (fadd : Nat → Nat → Nat) (val read1 read2 mem : Nat) : Bool × Nat :=
  let prev_val := read1
  let new_val := fadd val read2
  let cas := atomicCAS mem prev_val new_val
  (cas.1 == prev_val, cas.2)

/-- The binary32 pattern of the float whose value is the integer `n`, for
`|n| < 2^24` (sign bit, biased exponent, 23 fraction bits); `e` is the position
of the leading bit of `|n|`. -/
def float_as_uint (n : Int) : Nat :=
  if n = 0 then 0
  else
    let a := n.natAbs
    let e := ((List.range 24).filter (fun k => 2 ^ (k + 1) ≤ a)).length
    (if n < 0 then 2 ^ 31 else 0) + (127 + e) * 2 ^ 23 + (a * 2 ^ (23 - e) - 2 ^ 23)

/-- The value of a binary32 pattern that encodes an integer of magnitude below
`2^24` (the inverse of `float_as_uint` on those patterns). -/
def uint_as_float (p : Nat) : Int :=
  let e := p / 2 ^ 23 % 256
  let m := p % 2 ^ 23
  let a : Int := if e = 0 then 0 else ((2 ^ 23 + m) / 2 ^ (150 - e) : Nat)
  if p / 2 ^ 31 % 2 = 1 then -a else a

/-- Float addition on patterns, for operands and sums that are integers of
magnitude below `2^24`, where binary32 addition is exact. -/
def fadd_small_int (a b : Nat) : Nat :=
  float_as_uint (uint_as_float a + uint_as_float b)

/-! ## Atomic add: concurrent callers -/

/-- Where one thread stands inside a call of `rocsparse_atomic_add`. -/
inductive AddThread where
  /-- Before `prev_val = __float_as_uint(*ptr)`. -/
  | at_read1
  /-- Before `new_val = __float_as_uint(val + *ptr)`, holding `prev_val`. -/
  | at_read2 (read1 : Nat)
  /-- Before the `atomicCAS`, holding the patterns seen by the two reads. -/
  | at_cas (read1 read2 : Nat)
  /-- After the loop. -/
  | returned
deriving DecidableEq

/-- The shared location and the threads that call `rocsparse_atomic_add` on it. -/
structure AddSystem where
  /-- Bit pattern held by the location. -/
  mem : Nat
  /-- The state of every thread. -/
  threads : List AddThread

/-- One memory access of a thread: the location's pattern after it and the
thread's next state. -/
def thread_step (fadd : Nat → Nat → Nat) (val mem : Nat) : AddThread → Nat × AddThread
  | .at_read1 => (mem, .at_read2 mem)
  | .at_read2 read1 => (mem, .at_cas read1 mem)
  | .at_cas read1 read2 =>
    let it := atomic_add_iteration fadd val read1 read2 mem
    (it.2, if it.1 then .returned else .at_read1)
  | .returned => (mem, .returned)

/-- Thread number `t` performs its next memory access. -/
def system_step (fadd : Nat → Nat → Nat) (val : Nat) (s : AddSystem) (t : Nat) : AddSystem :=
  match s.threads.get? t with
  | none => s
  | some th =>
    ⟨(thread_step fadd val s.mem th).1, s.threads.set t (thread_step fadd val s.mem th).2⟩

/-- An interleaving: the threads named by `sched` perform one access each, in
that order. -/
def run_schedule (fadd : Nat → Nat → Nat) (val : Nat) (s : AddSystem) (sched : List Nat) :
    AddSystem :=
  sched.foldl (system_step fadd val) s

/-- `N` threads about to call `rocsparse_atomic_add` on a location holding `mem`. -/
def AddSystem.start (N mem : Nat) : AddSystem := ⟨mem, List.replicate N .at_read1⟩

/-- Every call has returned. -/
def AddSystem.all_returned (s : AddSystem) : Prop :=
  ∀ th ∈ s.threads, th = AddThread.returned

/-- Number of calls that have returned. -/
def AddSystem.returned_count (s : AddSystem) : Nat :=
  s.threads.countP (fun th => th = AddThread.returned)

/-- The interleaving without contention: thread 0 runs its whole call (three
accesses), then thread 1, and so on up to thread `n - 1`. -/
def one_after_another : Nat → List Nat
  | 0 => []
  | n + 1 => one_after_another n ++ [n, n, n]

/-- What a thread holds is the pattern of a count seen earlier. -/
def thread_ok (enc : Nat → Nat) (c : Nat) : AddThread → Prop
  | .at_read1 => True
  | .at_read2 r1 => ∃ j, j ≤ c ∧ r1 = enc j
  | .at_cas r1 r2 => ∃ j i, j ≤ i ∧ i ≤ c ∧ r1 = enc j ∧ r2 = enc i
  | .returned => True

/-- Invariant of the counting system. -/
def count_inv (enc : Nat → Nat) (N : Nat) (s : AddSystem) : Prop :=
  s.threads.length = N ∧ s.mem = enc s.returned_count ∧
  ∀ th ∈ s.threads, thread_ok enc s.returned_count th

/-- The call `rocsparse_atomic_add(ptr, val)` while no other writer touches the
location, so that every read of an iteration sees the pattern the location
holds. The first argument bounds the number of loop bodies. The result is the
final pattern of the location, the number of loop bodies executed and the
patterns written to the location, in order; `none` when the bound is reached. -/
def rocsparse_atomic_add (fadd : Nat → Nat → Nat) (val : Nat) :
    Nat → Nat → Option (Nat × Nat × List Nat)
  | 0, _ => none
  | fuel + 1, mem =>
    if (atomic_add_iteration fadd val mem mem mem).1 then
      some ((atomic_add_iteration fadd val mem mem mem).2, 1,
        [(atomic_add_iteration fadd val mem mem mem).2])
    else
      (rocsparse_atomic_add fadd val fuel (atomic_add_iteration fadd val mem mem mem).2).map
        (fun r => (r.1, r.2.1 + 1, r.2.2))

/-- The binary32 pattern of the float nearest to the integer `n` (round to
nearest, ties to even), for `|n| < 2^31`: below `2^24` every integer is a float
and the pattern is `float_as_uint n`; above, the magnitude is rounded to 24
significant bits. -/
def float_as_uint_rne (n : Int) : Nat :=
  if n.natAbs < 2 ^ 24 then float_as_uint n
  else
    let a := n.natAbs
    let e := ((List.range 31).filter (fun k => 2 ^ (k + 1) ≤ a)).length
    let q := a / 2 ^ (e - 23)
    let r := a % 2 ^ (e - 23)
    let half := 2 ^ (e - 24)
    let mant := if half < r ∨ (r = half ∧ q % 2 = 1) then q + 1 else q
    (if n < 0 then 2 ^ 31 else 0) + (127 + e) * 2 ^ 23 + (mant - 2 ^ 23)

/-- The value of a binary32 pattern whose float is an integer, also for
exponents above 23, where the float is a multiple of a power of two. -/
def uint_as_float_wide (p : Nat) : Int :=
  let e := p / 2 ^ 23 % 256
  let m := p % 2 ^ 23
  if e ≤ 150 then uint_as_float p
  else if p / 2 ^ 31 % 2 = 1 then -(((2 ^ 23 + m) * 2 ^ (e - 150) : Nat) : Int)
  else (((2 ^ 23 + m) * 2 ^ (e - 150) : Nat) : Int)

/-- Addition of binary32 floats on their patterns, for integer-valued operands:
the exact sum, rounded to nearest with ties to even. -/
def fadd_binary32_int (a b : Nat) : Nat :=
  float_as_uint_rne (uint_as_float_wide a + uint_as_float_wide b)

/-- Number of accesses a thread still makes before it returns when it runs
without interruption on a location holding `mem`. -/
def solo_distance (mem : Nat) : AddThread → Nat
  | .at_read1 => 3
  | .at_read2 read1 => if mem = read1 then 2 else 5
  | .at_cas read1 _ => if mem = read1 then 1 else 4
  | .returned => 0

/-- The interleaving that lets thread 0 make five accesses, then thread 1, and so
on up to thread `n - 1`. -/
def five_each : Nat → List Nat
  | 0 => []
  | n + 1 => five_each n ++ List.replicate 5 n

/-! ## Block-level tree reduction: what one lane does -/

/-- What a lane does in the block kernels: it enters the body of the line for a
threshold, reads or writes a slot of the buffer, or waits at `__syncthreads()`. -/
inductive LaneEvent where
  /-- The body of `if(BLOCKSIZE > h) { ... }` is entered. -/
  | step (h : Nat)
  /-- The slot `data[idx]` is read. -/
  | read (idx : Nat)
  /-- The slot `data[idx]` is written. -/
  | write (idx : Nat)
  /-- The call `__syncthreads()`. -/
  | barrier
deriving DecidableEq

/-- The guarded statement of lane `i` at threshold `h`, as `lane_step`, together
with the buffer accesses it makes: `data[i] = op(data[i], data[i + h])` reads
`data[i]` and `data[i + h]` and writes `data[i]`. -/
def lane_step_traced (op : Int → Int → Int) (BLOCKSIZE h i : Nat) (data : Buffer) :
    Buffer × List LaneEvent :=
  if i < h ∧ i + h < BLOCKSIZE then
    (Function.update data i (op (data i) (data (i + h))),
      [LaneEvent.read i, LaneEvent.read (i + h), LaneEvent.write i])
  else (data, [])

/-- The block runs a kernel on `data` and lane `i` is observed: for each
threshold `h`, in order, when `BLOCKSIZE > h`, the lane enters the body, executes
its guarded statement on the buffer of that step and waits at the barrier, while
the buffer goes through the step of the whole block. The result is the final
buffer and everything lane `i` did. -/
def lane_kernel_run (op : Int → Int → Int) (BLOCKSIZE i : Nat) (data : Buffer) :
    Buffer × List LaneEvent :=
  thresholds.foldl
    (fun (st : Buffer × List LaneEvent) h =>
      if BLOCKSIZE > h then
        (block_step op BLOCKSIZE h st.1,
          st.2 ++ [LaneEvent.step h] ++ (lane_step_traced op BLOCKSIZE h i st.1).2
            ++ [LaneEvent.barrier])
      else st)
    (data, [])

/-- Everything lane `i` does in `rocsparse_blockreduce_sum` (`op` is `+`) or
`rocsparse_blockreduce_max` (`op` is `max`) on `data`. -/
def lane_kernel_trace (op : Int → Int → Int) (BLOCKSIZE i : Nat) (data : Buffer) :
    List LaneEvent :=
  (lane_kernel_run op BLOCKSIZE i data).2

/-- The control flow that enters the line of each listed threshold and waits at
its barrier. -/
def steps_with_barriers : List Nat → List LaneEvent
  | [] => []
  | h :: hs => LaneEvent.step h :: LaneEvent.barrier :: steps_with_barriers hs

/-- The events of a trace that are not buffer accesses: the steps entered and
the barriers. -/
def control_flow (tr : List LaneEvent) : List LaneEvent :=
  tr.filter (fun e => match e with
    | LaneEvent.read _ => false
    | LaneEvent.write _ => false
    | _ => true)

/-- The value `t` is the maximum of the `w` registers `v b, ..., v (b + w - 1)`:
it bounds each of them and is attained by one of them. -/
def IsMaxOfWindow (v : Regs) (b w : Nat) (t : Int) : Prop :=
  (∀ j, j < w → v (b + j) ≤ t) ∧ ∃ j, j < w ∧ v (b + j) = t

/-! ## Block-level tree reduction: one step -/

/-- Effect of a duplicate-free schedule: every scheduled lane that passes the
guard combines its own slot with its partner slot as they were before the step. -/
theorem run_lanes_apply (op : Int → Int → Int) (B h : Nat) (sched : List Nat) :
    ∀ (data : Buffer), sched.Nodup → ∀ j,
      run_lanes op B h sched data j =
        if j ∈ sched ∧ j < h ∧ j + h < B then op (data j) (data (j + h)) else data j := by
  induction sched with
  | nil => intro data _ j; simp [run_lanes]
  | cons a t ih =>
    intro data hnd j
    have hnd' := List.nodup_cons.mp hnd
    have key : run_lanes op B h (a :: t) data = run_lanes op B h t (lane_step op B h a data) := rfl
    rw [key, ih _ hnd'.2 j]
    by_cases hg : a < h ∧ a + h < B
    · have hne : ∀ k, k < h → k + h ≠ a := by intro k hk; omega
      by_cases hja : j = a
      · subst hja
        have hnot : ¬ (j ∈ t ∧ j < h ∧ j + h < B) := fun hc => hnd'.1 hc.1
        have h1 : (j ∈ j :: t ∧ j < h ∧ j + h < B) := ⟨List.mem_cons_self _ _, hg⟩
        rw [if_neg hnot, if_pos h1]
        simp [lane_step, hg]
      · by_cases hc : j ∈ t ∧ j < h ∧ j + h < B
        · have h1 : (j ∈ a :: t ∧ j < h ∧ j + h < B) := ⟨List.mem_cons_of_mem _ hc.1, hc.2⟩
          rw [if_pos hc, if_pos h1]
          simp [lane_step, hg, Function.update_noteq hja, Function.update_noteq (hne j hc.2.1)]
        · have h1 : ¬ (j ∈ a :: t ∧ j < h ∧ j + h < B) := by
            rintro ⟨hm, hr⟩
            rcases List.mem_cons.mp hm with hm | hm
            · exact hja hm
            · exact hc ⟨hm, hr⟩
          rw [if_neg hc, if_neg h1]
          simp [lane_step, hg, Function.update_noteq hja]
    · have hl : lane_step op B h a data = data := by simp [lane_step, hg]
      rw [hl]
      by_cases hc : j ∈ t ∧ j < h ∧ j + h < B
      · have h1 : (j ∈ a :: t ∧ j < h ∧ j + h < B) := ⟨List.mem_cons_of_mem _ hc.1, hc.2⟩
        rw [if_pos hc, if_pos h1]
      · have h1 : ¬ (j ∈ a :: t ∧ j < h ∧ j + h < B) := by
          rintro ⟨hm, hr⟩
          rcases List.mem_cons.mp hm with hm | hm
          · exact hg (hm ▸ hr)
          · exact hc ⟨hm, hr⟩
        rw [if_neg hc, if_neg h1]

/-- The order in which the lanes of a block are run inside one step does not
matter: any schedule that runs each lane `0 .. B-1` exactly once gives the
buffer of `block_step`. -/
theorem run_lanes_schedule_irrelevant (op : Int → Int → Int) (B h : Nat) (sched : List Nat)
    (hnd : sched.Nodup) (hall : ∀ i, i ∈ sched ↔ i < B) (data : Buffer) :
    run_lanes op B h sched data = block_step op B h data := by
  funext j
  rw [block_step, run_lanes_apply op B h sched data hnd,
    run_lanes_apply op B h _ data (List.nodup_range B)]
  simp only [hall, List.mem_range]

/-- Closed form of one block step. -/
theorem block_step_apply (op : Int → Int → Int) (B h : Nat) (data : Buffer) (j : Nat) :
    block_step op B h data j =
      if j < h ∧ j + h < B then op (data j) (data (j + h)) else data j := by
  rw [block_step, run_lanes_apply op B h _ data (List.nodup_range B)]
  by_cases hc : j < h ∧ j + h < B
  · have : j ∈ List.range B ∧ j < h ∧ j + h < B := ⟨List.mem_range.mpr (by omega), hc⟩
    rw [if_pos hc, if_pos this]
  · have : ¬ (j ∈ List.range B ∧ j < h ∧ j + h < B) := fun hx => hc hx.2
    rw [if_neg hc, if_neg this]

/-! ## Block-level tree reduction: the running sum -/

/-- A sum step at threshold `h < B` folds the slots `h .. min B (2h) - 1` into the
slots `0 .. h-1`, each exactly once. -/
theorem sum_block_step (B h : Nat) (hB : h < B) (d : Buffer) :
    ∑ i in Finset.range h, block_step (fun a b => a + b) B h d i
      = ∑ i in Finset.range (min B (2 * h)), d i := by
  have hpt : ∀ i ∈ Finset.range h, block_step (fun a b => a + b) B h d i
      = d i + (if i + h < B then d (i + h) else 0) := by
    intro i hi
    have hi' : i < h := Finset.mem_range.mp hi
    rw [block_step_apply]
    by_cases hc : i + h < B
    · simp [hi', hc]
    · simp [hc]
  rw [Finset.sum_congr rfl hpt, Finset.sum_add_distrib]
  obtain ⟨k, hk⟩ : ∃ k, min B (2 * h) = h + k := ⟨min B (2 * h) - h, by omega⟩
  rw [hk, Finset.sum_range_add]
  congr 1
  rw [← Finset.sum_filter]
  have hf : (Finset.range h).filter (fun i => i + h < B) = Finset.range k := by
    ext x
    simp only [Finset.mem_filter, Finset.mem_range]
    omega
  rw [hf]
  exact Finset.sum_congr rfl (fun x _ => by rw [Nat.add_comm])

/-- Invariant of the unrolled sum kernel: the line for threshold `h` turns the
sum of the first `min B (2h)` slots into the sum of the first `min B h` slots. -/
theorem sum_line (B h h2 : Nat) (hh : h2 = 2 * h) (d : Buffer) :
    ∑ i in Finset.range (min B h),
        (if B > h then block_step (fun a b => a + b) B h d else d) i
      = ∑ i in Finset.range (min B h2), d i := by
  subst hh
  by_cases hB : B > h
  · rw [if_pos hB, Nat.min_eq_right (Nat.le_of_lt hB)]
    exact sum_block_step B h hB d
  · rw [if_neg hB]
    have h1 : min B h = B := by omega
    have h2 : min B (2 * h) = B := by omega
    rw [h1, h2]

/-- For every block size, slot 0 ends with the sum of the first
`min BLOCKSIZE 1024` slots of the initial buffer. -/
theorem blockreduce_sum_covers (B : Nat) (hB : 1 ≤ B) (d : Buffer) :
    rocsparse_blockreduce_sum B d 0 = ∑ i in Finset.range (min B 1024), d i := by
  have h := Finset.sum_range_one (rocsparse_blockreduce_sum B d)
  have h1 : min B 1 = 1 := by omega
  rw [← h, ← h1]
  simp only [rocsparse_blockreduce_sum, blockreduce, thresholds, List.foldl]
  rw [sum_line B 1 2 rfl, sum_line B 2 4 rfl, sum_line B 4 8 rfl, sum_line B 8 16 rfl,
    sum_line B 16 32 rfl, sum_line B 32 64 rfl, sum_line B 64 128 rfl,
    sum_line B 128 256 rfl, sum_line B 256 512 rfl, sum_line B 512 1024 rfl]

/-! ## Block-level tree reduction: the running maximum -/

/-- A maximum step at threshold `h < B` keeps the maximum while shrinking the
active prefix from `min B (2h)` to `h` slots. -/
theorem max_block_step (B h : Nat) (hB : h < B) (d : Buffer) (t : Int)
    (ht : IsMaxOfFirst (min B (2 * h)) d t) :
    IsMaxOfFirst h (block_step (fun a b => max a b) B h d) t := by
  obtain ⟨hub, j, hj, hjt⟩ := ht
  have hval : ∀ i, i < h → block_step (fun a b => max a b) B h d i ≤ t := by
    intro i hi
    rw [block_step_apply]
    by_cases hc : i + h < B
    · rw [if_pos ⟨hi, hc⟩]
      exact max_le (hub i (by omega)) (hub (i + h) (by omega))
    · rw [if_neg (fun hx => hc hx.2)]
      exact hub i (by omega)
  refine ⟨hval, ?_⟩
  by_cases hjh : j < h
  · refine ⟨j, hjh, le_antisymm (hval j hjh) ?_⟩
    rw [block_step_apply]
    by_cases hc : j + h < B
    · rw [if_pos ⟨hjh, hc⟩, ← hjt]; exact le_max_left _ _
    · rw [if_neg (fun hx => hc hx.2), hjt]
  · have hlt : j - h < h := by omega
    have hadd : j - h + h = j := by omega
    refine ⟨j - h, hlt, le_antisymm (hval _ hlt) ?_⟩
    rw [block_step_apply, if_pos ⟨hlt, by omega⟩, hadd, ← hjt]
    exact le_max_right _ _

/-- Invariant of the unrolled maximum kernel, line for threshold `h`. -/
theorem max_line (B h h2 : Nat) (hh : h2 = 2 * h) (d : Buffer) (t : Int)
    (ht : IsMaxOfFirst (min B h2) d t) :
    IsMaxOfFirst (min B h)
      (if B > h then block_step (fun a b => max a b) B h d else d) t := by
  subst hh
  by_cases hB : B > h
  · rw [if_pos hB, Nat.min_eq_right (Nat.le_of_lt hB)]
    exact max_block_step B h hB d t ht
  · rw [if_neg hB]
    have h1 : min B h = B := by omega
    have h2 : min B (2 * h) = B := by omega
    rw [h1]; rw [h2] at ht; exact ht

/-- For every block size, slot 0 ends with the maximum of the first
`min BLOCKSIZE 1024` slots of the initial buffer. -/
theorem blockreduce_max_covers (B : Nat) (hB : 1 ≤ B) (d : Buffer) (t : Int)
    (ht : IsMaxOfFirst (min B 1024) d t) :
    rocsparse_blockreduce_max B d 0 = t := by
  have hfin : IsMaxOfFirst (min B 1) (rocsparse_blockreduce_max B d) t := by
    simp only [rocsparse_blockreduce_max, blockreduce, thresholds, List.foldl]
    exact max_line B 1 2 rfl _ t (max_line B 2 4 rfl _ t (max_line B 4 8 rfl _ t
      (max_line B 8 16 rfl _ t (max_line B 16 32 rfl _ t (max_line B 32 64 rfl _ t
      (max_line B 64 128 rfl _ t (max_line B 128 256 rfl _ t
      (max_line B 256 512 rfl _ t (max_line B 512 1024 rfl _ t ht)))))))))
  obtain ⟨_, j, hj, hjt⟩ := hfin
  have : j = 0 := by omega
  rw [← hjt, this]

/-- Every non-empty prefix of a buffer has a maximum. -/
theorem exists_isMaxOfFirst (w : Nat) (hw : 1 ≤ w) (d : Buffer) :
    ∃ t, IsMaxOfFirst w d t := by
  obtain ⟨j, hj, hmax⟩ := Finset.exists_max_image (Finset.range w) d
    ⟨0, Finset.mem_range.mpr (by omega)⟩
  exact ⟨d j, fun i hi => hmax i (Finset.mem_range.mpr hi), j, Finset.mem_range.mp hj, rfl⟩

/-- The maximum of a prefix is unique. -/
theorem isMaxOfFirst_unique (w : Nat) (d : Buffer) (s t : Int)
    (hs : IsMaxOfFirst w d s) (ht : IsMaxOfFirst w d t) : s = t := by
  obtain ⟨hs1, i, hi, his⟩ := hs
  obtain ⟨ht1, j, hj, hjt⟩ := ht
  exact le_antisymm (his ▸ ht1 i hi) (hjt ▸ hs1 j hj)

/-- The lane-index buffer `data[i] = i` of the examples. -/
theorem sum_lane_index_256 : ∑ i in Finset.range 256, ((i : Nat) : Int) = 32640 := by
  have h := Finset.sum_range_id_mul_two 256
  have h2 : (∑ i in Finset.range 256, i) = 32640 := by omega
  rw [← Nat.cast_sum, h2]
  rfl

/-- C1: for a power-of-two block size `2 ≤ B ≤ 1024`, the sum kernel run by all
lanes of the block leaves in `data[0]` the sum of the initial `data[0..B-1]`;
for `B = 256` and `data[i] = i` that is 32640. -/
theorem blockreduce_sum_pow2 (B : Nat) (data : Buffer)
    (_hpow : ∃ k, B = 2 ^ k) (h2 : 2 ≤ B) (hB : B ≤ 1024) :
    rocsparse_blockreduce_sum B data 0 = ∑ i in Finset.range B, data i ∧
    rocsparse_blockreduce_sum 256 (fun i => (i : Int)) 0 = 32640 := by
  constructor
  · rw [blockreduce_sum_covers B (by omega) data, Nat.min_eq_left hB]
  · rw [blockreduce_sum_covers 256 (by decide)]
    exact sum_lane_index_256

/-- Witness of C1 at `B = 256`, `data[i] = i`. -/
theorem blockreduce_sum_pow2_witness :
    (∃ k, 256 = 2 ^ k) ∧ 2 ≤ 256 ∧ 256 ≤ 1024 ∧
    (rocsparse_blockreduce_sum 256 (fun i => (i : Int)) 0
        = ∑ i in Finset.range 256, (i : Int) ∧
      rocsparse_blockreduce_sum 256 (fun i => (i : Int)) 0 = 32640) :=
  ⟨⟨8, by decide⟩, by decide, by decide,
    blockreduce_sum_pow2 256 (fun i => (i : Int)) ⟨8, by decide⟩ (by decide) (by decide)⟩

/-- C2: for a power-of-two block size `2 ≤ B ≤ 1024`, the maximum kernel run by
all lanes of the block leaves in `data[0]` the maximum of the initial
`data[0..B-1]` (an upper bound of all of them that one of them attains); for
`B = 256` and `data[i] = i` that is 255. -/
theorem blockreduce_max_pow2 (B : Nat) (data : Buffer)
    (_hpow : ∃ k, B = 2 ^ k) (h2 : 2 ≤ B) (hB : B ≤ 1024) :
    ((∀ i, i < B → data i ≤ rocsparse_blockreduce_max B data 0) ∧
      ∃ j, j < B ∧ data j = rocsparse_blockreduce_max B data 0) ∧
    rocsparse_blockreduce_max 256 (fun i => (i : Int)) 0 = 255 := by
  constructor
  · obtain ⟨t, ht⟩ := exists_isMaxOfFirst B (by omega) data
    have hr : rocsparse_blockreduce_max B data 0 = t :=
      blockreduce_max_covers B (by omega) data t (by rw [Nat.min_eq_left hB]; exact ht)
    rw [hr]
    exact ht
  · apply blockreduce_max_covers 256 (by decide)
    refine ⟨fun i hi => ?_, 255, by decide, rfl⟩
    have hi' : i < 256 := by simpa using hi
    show ((i : Nat) : Int) ≤ 255
    omega

/-- Witness of C2 at `B = 4`, `data = 3, 9, 2, 7`. -/
theorem blockreduce_max_pow2_witness :
    (∃ k, 4 = 2 ^ k) ∧ 2 ≤ 4 ∧ 4 ≤ 1024 ∧
    (((∀ i, i < 4 → (fun i => if i = 0 then 3 else if i = 1 then 9 else if i = 2 then 2 else 7) i
          ≤ rocsparse_blockreduce_max 4
              (fun i => if i = 0 then 3 else if i = 1 then 9 else if i = 2 then 2 else 7) 0) ∧
      ∃ j, j < 4 ∧ (fun i => if i = 0 then 3 else if i = 1 then 9 else if i = 2 then 2 else 7) j
          = rocsparse_blockreduce_max 4
              (fun i => if i = 0 then 3 else if i = 1 then 9 else if i = 2 then 2 else 7) 0) ∧
      rocsparse_blockreduce_max 256 (fun i => (i : Int)) 0 = 255) :=
  ⟨⟨2, by decide⟩, by decide, by decide,
    blockreduce_max_pow2 4 _ ⟨2, by decide⟩ (by decide) (by decide)⟩

/-- C3: for a block size `3 ≤ B < 1024` that is not a power of two, the sum kernel
leaves in `data[0]` the sum of the initial `data[0..B-1]` and the maximum kernel
leaves in `data[0]` their maximum. -/
theorem blockreduce_non_pow2 (B : Nat) (data : Buffer)
    (_hnp : ¬ ∃ k, B = 2 ^ k) (h3 : 3 ≤ B) (hB : B < 1024) :
    rocsparse_blockreduce_sum B data 0 = ∑ i in Finset.range B, data i ∧
    (∀ i, i < B → data i ≤ rocsparse_blockreduce_max B data 0) ∧
    ∃ j, j < B ∧ data j = rocsparse_blockreduce_max B data 0 := by
  have hmin : min B 1024 = B := by omega
  constructor
  · rw [blockreduce_sum_covers B (by omega) data, hmin]
  · obtain ⟨t, ht⟩ := exists_isMaxOfFirst B (by omega) data
    have hr : rocsparse_blockreduce_max B data 0 = t :=
      blockreduce_max_covers B (by omega) data t (by rw [hmin]; exact ht)
    rw [hr]
    exact ht

/-- The block size 5 is not a power of two. -/
theorem five_not_pow2 : ¬ ∃ k, 5 = 2 ^ k := by
  rintro ⟨k, hk⟩
  have hk3 : k < 3 := by
    by_contra hc
    have := Nat.pow_le_pow_right (show 0 < 2 by decide) (Nat.le_of_not_lt hc)
    omega
  interval_cases k <;> omega

/-- Witness of C3 at `B = 5`, `data[i] = i + 1`. -/
theorem blockreduce_non_pow2_witness :
    (¬ ∃ k, 5 = 2 ^ k) ∧ 3 ≤ 5 ∧ 5 < 1024 ∧
    (rocsparse_blockreduce_sum 5 (fun i => (i : Int) + 1) 0
        = ∑ i in Finset.range 5, ((i : Int) + 1) ∧
      (∀ i : Nat, i < 5 → (i : Int) + 1
          ≤ rocsparse_blockreduce_max 5 (fun i => (i : Int) + 1) 0) ∧
      ∃ j : Nat, j < 5 ∧ (j : Int) + 1
          = rocsparse_blockreduce_max 5 (fun i => (i : Int) + 1) 0) :=
  ⟨five_not_pow2, by decide, by decide,
    blockreduce_non_pow2 5 (fun i => (i : Int) + 1) five_not_pow2 (by decide) (by decide)⟩

/-! ## Register-shuffle codepath -/

/-- With loop variable 0 the loop is over. -/
theorem wfreduce_sum_loop_zero (fuel : Nat) (x : Regs) : NVCC.wfreduce_sum_loop fuel 0 x = x := by
  cases fuel <;> simp [NVCC.wfreduce_sum_loop]

/-- One iteration of the loop. -/
theorem wfreduce_sum_loop_succ (fuel i : Nat) (hi : 0 < i) (x : Regs) :
    NVCC.wfreduce_sum_loop (fuel + 1) i x
      = NVCC.wfreduce_sum_loop fuel (i / 2) (fun l => x l + NVCC.shfl_down_sync x i l) := by
  simp [NVCC.wfreduce_sum_loop, hi, Nat.shiftRight_eq_div_pow]

/-- The iteration bound is never what stops the loop: any two bounds of at least
the loop variable give the same result. -/
theorem wfreduce_sum_loop_fuel : ∀ (f g i : Nat) (x : Regs), i ≤ f → i ≤ g →
    NVCC.wfreduce_sum_loop f i x = NVCC.wfreduce_sum_loop g i x := by
  intro f
  induction f with
  | zero =>
    intro g i x hf _
    have : i = 0 := by omega
    subst this
    rw [wfreduce_sum_loop_zero, wfreduce_sum_loop_zero]
  | succ f ih =>
    intro g i x hf hg
    by_cases hi : 0 < i
    · obtain ⟨g', rfl⟩ : ∃ g', g = g' + 1 := ⟨g - 1, by omega⟩
      rw [wfreduce_sum_loop_succ f i hi, wfreduce_sum_loop_succ g' i hi]
      exact ih g' (i / 2) _ (by omega) (by omega)
    · have : i = 0 := by omega
      subst this
      rw [wfreduce_sum_loop_zero, wfreduce_sum_loop_zero]

/-- Entered at a power of two `2^k`, the loop leaves on every lane `l` whose
window `l .. l + 2^(k+1) - 1` lies inside the warp the sum of that window. -/
theorem wfreduce_sum_loop_window : ∀ (k f : Nat) (x : Regs) (l : Nat),
    2 ^ k ≤ f → l + 2 ^ (k + 1) ≤ 32 →
    NVCC.wfreduce_sum_loop f (2 ^ k) x l = ∑ j in Finset.range (2 ^ (k + 1)), x (l + j) := by
  intro k
  induction k with
  | zero =>
    intro f x l hf hl
    obtain ⟨f', rfl⟩ : ∃ f', f = f' + 1 := ⟨f - 1, by simp at hf; omega⟩
    rw [wfreduce_sum_loop_succ f' _ (by decide)]
    have h0 : (2 ^ 0) / 2 = 0 := by decide
    rw [h0, wfreduce_sum_loop_zero]
    have hl' : l + 1 < 32 := by simp at hl; omega
    simp [NVCC.shfl_down_sync, NVCC.warpSize, hl', Finset.sum_range_succ]
  | succ k ih =>
    intro f x l hf hl
    have hpos : 0 < 2 ^ k := Nat.pow_pos (by decide)
    have hp1 : 2 ^ (k + 1) = 2 * 2 ^ k := by rw [pow_succ]; omega
    have hp2 : 2 ^ (k + 1 + 1) = 2 ^ (k + 1) + 2 ^ (k + 1) := by rw [pow_succ]; omega
    obtain ⟨f', rfl⟩ : ∃ f', f = f' + 1 := ⟨f - 1, by omega⟩
    rw [wfreduce_sum_loop_succ f' _ (by omega)]
    have hhalf : 2 ^ (k + 1) / 2 = 2 ^ k := by omega
    rw [hhalf, ih f' _ l (by omega) (by omega), hp2, Finset.sum_range_add,
      ← Finset.sum_add_distrib]
    apply Finset.sum_congr rfl
    intro j hj
    have hj' : j < 2 ^ (k + 1) := Finset.mem_range.mp hj
    have hin : l + j + 2 ^ (k + 1) < NVCC.warpSize := by simp only [NVCC.warpSize]; omega
    simp only [NVCC.shfl_down_sync, if_pos hin]
    congr 2
    omega

/-- Shuffle codepath, every supported width: lane `l` with `l + W ≤ 32` returns
the sum of the lanes `l .. l + W - 1`. -/
theorem wfreduce_sum_window (W : Nat) (hW : W ∈ [1, 2, 4, 8, 16, 32]) (v : Regs) (l : Nat)
    (hl : l + W ≤ 32) :
    NVCC.rocsparse_wfreduce_sum W v l = ∑ j in Finset.range W, v (l + j) := by
  simp only [List.mem_cons, List.mem_singleton, List.not_mem_nil, or_false] at hW
  rcases hW with rfl | rfl | rfl | rfl | rfl | rfl
  · simp [NVCC.rocsparse_wfreduce_sum, NVCC.wfreduce_sum_loop]
  · exact wfreduce_sum_loop_window 0 _ v l (by decide) hl
  · exact wfreduce_sum_loop_window 1 _ v l (by decide) hl
  · exact wfreduce_sum_loop_window 2 _ v l (by decide) hl
  · exact wfreduce_sum_loop_window 3 _ v l (by decide) hl
  · exact wfreduce_sum_loop_window 4 _ v l (by decide) hl

/-- C4, as stated, fails: for `W = 32` and `v_l = l` lane 1 of the group returns
512 (its own running value is added whenever the source lane is outside the
warp), not the group sum 496. -/
theorem wfreduce_sum_lane1_not_group_sum :
    NVCC.rocsparse_wfreduce_sum 32 (fun l => (l : Int)) 1 = 512 ∧
    NVCC.rocsparse_wfreduce_sum 32 (fun l => (l : Int)) 1 ≠ 496 := by
  constructor <;> decide

/-- C4, amended: on the register-shuffle codepath, for every width
`W ∈ {1, 2, 4, 8, 16, 32}` and every assignment of integers to the lanes, the
first lane `g * W` of each aligned `W`-lane group of the warp returns the sum of
the `W` values of its group; for `W = 32` and `v_l = l` lane 0 returns 496. -/
theorem wfreduce_sum_first_lane (W : Nat) (hW : W ∈ [1, 2, 4, 8, 16, 32]) (v : Regs)
    (g : Nat) (hg : g * W + W ≤ 32) :
    NVCC.rocsparse_wfreduce_sum W v (g * W) = ∑ j in Finset.range W, v (g * W + j) ∧
    NVCC.rocsparse_wfreduce_sum 32 (fun l => (l : Int)) 0 = 496 :=
  ⟨wfreduce_sum_window W hW v (g * W) hg, by decide⟩

/-- Witness of the amended C4 at `W = 4`, group 3 (lanes 12..15), `v_l = l * l`. -/
theorem wfreduce_sum_first_lane_witness :
    4 ∈ [1, 2, 4, 8, 16, 32] ∧ 3 * 4 + 4 ≤ 32 ∧
    (NVCC.rocsparse_wfreduce_sum 4 (fun l => (l : Int) * l) (3 * 4)
        = ∑ j in Finset.range 4, (((3 * 4 + j : Nat) : Int) * ((3 * 4 + j : Nat) : Int)) ∧
      NVCC.rocsparse_wfreduce_sum 32 (fun l => (l : Int)) 0 = 496) :=
  ⟨by decide, by decide,
    wfreduce_sum_first_lane 4 (by decide) (fun l => (l : Int) * l) 3 (by decide)⟩

/-! ## Swizzle codepath -/

/-- The swizzle acts inside each group of 32 lanes. -/
theorem ds_swizzle_src_group (pat l : Nat) :
    HCC.ds_swizzle_src pat l = l / 32 * 32 + HCC.ds_swizzle_src pat (l % 32) := by
  have h : l % 32 / 32 = 0 := Nat.div_eq_of_lt (Nat.mod_lt _ (by decide))
  simp [HCC.ds_swizzle_src, Nat.mod_mod, h]

/-- Pattern `0x80b1` (quad permute 1,0,3,2): partner at distance 1. -/
theorem ds_swizzle_src_80b1 : ∀ r, r < 32 →
    HCC.ds_swizzle_src 0x80b1 r = if (r / 1) % 2 = 0 then r + 1 else r - 1 := by decide

/-- Pattern `0x804e` (quad permute 2,3,0,1): partner at distance 2. -/
theorem ds_swizzle_src_804e : ∀ r, r < 32 →
    HCC.ds_swizzle_src 0x804e r = if (r / 2) % 2 = 0 then r + 2 else r - 2 := by decide

/-- Pattern `0x101f` (xor mask 4): partner at distance 4. -/
theorem ds_swizzle_src_101f : ∀ r, r < 32 →
    HCC.ds_swizzle_src 0x101f r = if (r / 4) % 2 = 0 then r + 4 else r - 4 := by decide

/-- Pattern `0x201f` (xor mask 8): partner at distance 8. -/
theorem ds_swizzle_src_201f : ∀ r, r < 32 →
    HCC.ds_swizzle_src 0x201f r = if (r / 8) % 2 = 0 then r + 8 else r - 8 := by decide

/-- Pattern `0x401f` (xor mask 16): partner at distance 16. -/
theorem ds_swizzle_src_401f : ∀ r, r < 32 →
    HCC.ds_swizzle_src 0x401f r = if (r / 16) % 2 = 0 then r + 16 else r - 16 := by decide

/-- Geometry of pattern `0x80b1`. -/
theorem halves_80b1 (l : Nat) : Halves 1 2 l (HCC.ds_swizzle_src 0x80b1 l) := by
  have h := ds_swizzle_src_80b1 (l % 32) (Nat.mod_lt _ (by decide))
  rw [ds_swizzle_src_group, h]
  unfold Halves
  split_ifs <;> omega

/-- Geometry of pattern `0x804e`. -/
theorem halves_804e (l : Nat) : Halves 2 4 l (HCC.ds_swizzle_src 0x804e l) := by
  have h := ds_swizzle_src_804e (l % 32) (Nat.mod_lt _ (by decide))
  rw [ds_swizzle_src_group, h]
  unfold Halves
  split_ifs <;> omega

/-- Geometry of pattern `0x101f`. -/
theorem halves_101f (l : Nat) : Halves 4 8 l (HCC.ds_swizzle_src 0x101f l) := by
  have h := ds_swizzle_src_101f (l % 32) (Nat.mod_lt _ (by decide))
  rw [ds_swizzle_src_group, h]
  unfold Halves
  split_ifs <;> omega

/-- Geometry of pattern `0x201f`. -/
theorem halves_201f (l : Nat) : Halves 8 16 l (HCC.ds_swizzle_src 0x201f l) := by
  have h := ds_swizzle_src_201f (l % 32) (Nat.mod_lt _ (by decide))
  rw [ds_swizzle_src_group, h]
  unfold Halves
  split_ifs <;> omega

/-- Geometry of pattern `0x401f`. -/
theorem halves_401f (l : Nat) : Halves 16 32 l (HCC.ds_swizzle_src 0x401f l) := by
  have h := ds_swizzle_src_401f (l % 32) (Nat.mod_lt _ (by decide))
  rw [ds_swizzle_src_group, h]
  unfold Halves
  split_ifs <;> omega

/-- One butterfly step: when every lane holds the sum of its aligned group of `m`
lanes and the partner sits in the other half of the group of `2m` lanes, adding
the partner's register gives the sum of the group of `2m` lanes. -/
theorem butterfly_step {α : Type} [AddCommMonoid α] (m m2 : Nat) (hm : m2 = m + m)
    (v x : Nat → α) (src : Nat → Nat)
    (hx : ∀ l, x l = ∑ j in Finset.range m, v (l / m * m + j))
    (hsrc : ∀ l, Halves m m2 l (src l)) (l : Nat) :
    x l + x (src l) = ∑ j in Finset.range m2, v (l / m2 * m2 + j) := by
  subst hm
  have hshift : ∀ b : Nat, ∑ j in Finset.range m, v (b + m + j)
      = ∑ j in Finset.range m, v (b + (m + j)) :=
    fun b => Finset.sum_congr rfl (fun j _ => by rw [Nat.add_assoc])
  rw [hx l, hx (src l), Finset.sum_range_add]
  rcases hsrc l with ⟨h1, h2⟩ | ⟨h1, h2⟩
  · rw [h1, h2, hshift]
  · rw [h1, h2, hshift, add_comm]

/-- Every lane holds the sum of its aligned group of one lane. -/
theorem group_sum_one {α : Type} [AddCommMonoid α] (v : Nat → α) (l : Nat) :
    v l = ∑ j in Finset.range 1, v (l / 1 * 1 + j) := by
  simp

/-- Swizzle codepath, every supported width: every lane returns the sum of the
`W` lanes of its aligned group. -/
theorem wfreduce_sum_float_group {α : Type} [AddCommMonoid α] (W : Nat)
    (hW : W ∈ [1, 2, 4, 8, 16, 32]) (v : Nat → α) (l : Nat) :
    HCC.rocsparse_wfreduce_sum_float W v l = ∑ j in Finset.range W, v (l / W * W + j) := by
  have s1 := butterfly_step 1 2 rfl v v _ (group_sum_one v) halves_80b1
  have s2 := butterfly_step 2 4 rfl v _ _ s1 halves_804e
  have s3 := butterfly_step 4 8 rfl v _ _ s2 halves_101f
  have s4 := butterfly_step 8 16 rfl v _ _ s3 halves_201f
  have s5 := butterfly_step 16 32 rfl v _ _ s4 halves_401f
  simp only [List.mem_cons, List.mem_singleton, List.not_mem_nil, or_false] at hW
  rcases hW with rfl | rfl | rfl | rfl | rfl | rfl
  · simp [HCC.rocsparse_wfreduce_sum_float]
  · simpa [HCC.rocsparse_wfreduce_sum_float, HCC.ds_swizzle] using s1 l
  · simpa [HCC.rocsparse_wfreduce_sum_float, HCC.ds_swizzle] using s2 l
  · simpa [HCC.rocsparse_wfreduce_sum_float, HCC.ds_swizzle] using s3 l
  · simpa [HCC.rocsparse_wfreduce_sum_float, HCC.ds_swizzle] using s4 l
  · simpa [HCC.rocsparse_wfreduce_sum_float, HCC.ds_swizzle] using s5 l

/-- C5: on the swizzle codepath, for every width `W ∈ {1, 2, 4, 8, 16, 32}` and
every assignment of values to the lanes (exact, i.e. associative and commutative,
addition), every lane returns the sum of the `W` values of its aligned group,
and any two lanes of one group return the same value. -/
theorem wfreduce_sum_swizzle_every_lane {α : Type} [AddCommMonoid α] (W : Nat)
    (hW : W ∈ [1, 2, 4, 8, 16, 32]) (v : Nat → α) (l l' : Nat) (hg : l' / W = l / W) :
    HCC.rocsparse_wfreduce_sum_float W v l = ∑ j in Finset.range W, v (l / W * W + j) ∧
    HCC.rocsparse_wfreduce_sum_float W v l' = HCC.rocsparse_wfreduce_sum_float W v l := by
  refine ⟨wfreduce_sum_float_group W hW v l, ?_⟩
  rw [wfreduce_sum_float_group W hW v l, wfreduce_sum_float_group W hW v l', hg]

/-- Witness of C5 at `W = 8`, lanes 10 and 15 (group 8..15), `v_l = l`. -/
theorem wfreduce_sum_swizzle_every_lane_witness :
    8 ∈ [1, 2, 4, 8, 16, 32] ∧ 15 / 8 = 10 / 8 ∧
    (HCC.rocsparse_wfreduce_sum_float 8 (fun l => (l : Int)) 10
        = ∑ j in Finset.range 8, ((10 / 8 * 8 + j : Nat) : Int) ∧
      HCC.rocsparse_wfreduce_sum_float 8 (fun l => (l : Int)) 15
        = HCC.rocsparse_wfreduce_sum_float 8 (fun l => (l : Int)) 10) :=
  ⟨by decide, by decide,
    wfreduce_sum_swizzle_every_lane 8 (by decide) (fun l => (l : Int)) 10 15 (by decide)⟩

/-! ## Combined sum and maximum reduction -/

/-- The sum accumulator of the combined shuffle loop runs the sum-only loop. -/
theorem wfreduce_sum_max_loop_fst : ∀ (f i : Nat) (st : Regs × Regs),
    (NVCC.wfreduce_sum_max_loop f i st).1 = NVCC.wfreduce_sum_loop f i st.1 := by
  intro f
  induction f with
  | zero => intro i st; rfl
  | succ f ih =>
    intro i st
    by_cases hi : i > 0
    · simp only [NVCC.wfreduce_sum_max_loop, NVCC.wfreduce_sum_loop, if_pos hi]
      exact ih _ _
    · simp only [NVCC.wfreduce_sum_max_loop, NVCC.wfreduce_sum_loop, if_neg hi]

/-- The maximum accumulator of the combined shuffle loop runs the maximum-only
loop. -/
theorem wfreduce_sum_max_loop_snd : ∀ (f i : Nat) (st : Regs × Regs),
    (NVCC.wfreduce_sum_max_loop f i st).2 = NVCC.wfreduce_max_only_loop f i st.2 := by
  intro f
  induction f with
  | zero => intro i st; rfl
  | succ f ih =>
    intro i st
    by_cases hi : i > 0
    · simp only [NVCC.wfreduce_sum_max_loop, NVCC.wfreduce_max_only_loop, if_pos hi]
      exact ih _ _
    · simp only [NVCC.wfreduce_sum_max_loop, NVCC.wfreduce_max_only_loop, if_neg hi]

/-- Sum accumulator of one guarded DPP block. -/
theorem dpp_guarded_fst (c : Prop) [Decidable c] (us um : Regs) (ctrl rm bm : Nat)
    (st : Regs × Regs) :
    (if c then HCC.dpp_step us um ctrl rm bm st else st).1
      = if c then (fun l => (fun a b => a + b) (st.1 l) (HCC.hip_move_dpp us st.1 ctrl rm bm l))
        else st.1 := by
  split <;> rfl

/-- Maximum accumulator of one guarded DPP block. -/
theorem dpp_guarded_snd (c : Prop) [Decidable c] (us um : Regs) (ctrl rm bm : Nat)
    (st : Regs × Regs) :
    (if c then HCC.dpp_step us um ctrl rm bm st else st).2
      = if c then (fun l => (fun a b => max a b) (st.2 l) (HCC.hip_move_dpp um st.2 ctrl rm bm l))
        else st.2 := by
  split <;> rfl

/-! ## Double-precision transport in two halves -/

/-- Splitting a 64-bit pattern into its two words and reading it back is the
identity. -/
theorem dbl_b32_val_of_val (p : Nat) (hp : p < 2 ^ 64) : (HCC.dbl_b32.of_val p).val = p := by
  simp only [HCC.dbl_b32.of_val, HCC.dbl_b32.val]
  norm_num at hp ⊢
  omega

/-- Both halves of `upper_sum` come from the same source lane and keep their
position. -/
theorem swizzle_halves_eq (temp_sum : Nat → HCC.dbl_b32) (pattern l : Nat) :
    HCC.swizzle_halves temp_sum pattern l = temp_sum (HCC.ds_swizzle_src pattern l) := rfl

/-- Both halves read by `readlane` come from the named lane. -/
theorem readlane_halves_eq (temp_sum : Nat → HCC.dbl_b32) (lane l : Nat) :
    HCC.readlane_halves temp_sum lane l = temp_sum lane := rfl

/-- One guarded block of the double reduction, seen on whole patterns. -/
theorem double_stage (c : Prop) [Decidable c] (fadd : Nat → Nat → Nat)
    (hfadd : ∀ a b, fadd a b < 2 ^ 64) (src : Nat → Nat)
    (exch : (Nat → HCC.dbl_b32) → Nat → HCC.dbl_b32)
    (hupper : ∀ T l, exch T l = T (src l))
    (T : Nat → HCC.dbl_b32) (V : Nat → Nat)
    (hT : ∀ l, T l = HCC.dbl_b32.of_val (V l)) (hV : ∀ l, V l < 2 ^ 64) :
    (∀ l, (if c then HCC.add_upper fadd T (exch T) else T) l
        = HCC.dbl_b32.of_val ((if c then (fun l => fadd (V l) (V (src l))) else V) l)) ∧
    ∀ l, (if c then (fun l => fadd (V l) (V (src l))) else V) l < 2 ^ 64 := by
  by_cases hc : c
  · simp only [if_pos hc]
    refine ⟨fun l => ?_, fun l => hfadd _ _⟩
    simp only [HCC.add_upper, hupper, hT, dbl_b32_val_of_val _ (hV _)]
  · simp only [if_neg hc]
    exact ⟨hT, hV⟩

/-- The double reduction computes, on every lane, what the reduction that moves
whole 64-bit patterns computes. -/
theorem wfreduce_sum_double_eq_whole (fadd : Nat → Nat → Nat) (W : Nat) (sum : Nat → Nat)
    (hsum : ∀ k, sum k < 2 ^ 64) (hfadd : ∀ a b, fadd a b < 2 ^ 64) (l : Nat) :
    HCC.rocsparse_wfreduce_sum_double fadd W sum l
      = HCC.wfreduce_sum_whole_pattern fadd W sum l := by
  have s0 : (∀ l, (fun l => HCC.dbl_b32.of_val (sum l)) l = HCC.dbl_b32.of_val (sum l)) :=
    fun _ => rfl
  have s1 := double_stage (W > 1) fadd hfadd (HCC.ds_swizzle_src 0x80b1)
    (fun T => HCC.swizzle_halves T 0x80b1) (fun _ _ => rfl) _ sum s0 hsum
  have s2 := double_stage (W > 2) fadd hfadd (HCC.ds_swizzle_src 0x804e)
    (fun T => HCC.swizzle_halves T 0x804e) (fun _ _ => rfl) _ _ s1.1 s1.2
  have s3 := double_stage (W > 4) fadd hfadd (HCC.ds_swizzle_src 0x101f)
    (fun T => HCC.swizzle_halves T 0x101f) (fun _ _ => rfl) _ _ s2.1 s2.2
  have s4 := double_stage (W > 8) fadd hfadd (HCC.ds_swizzle_src 0x201f)
    (fun T => HCC.swizzle_halves T 0x201f) (fun _ _ => rfl) _ _ s3.1 s3.2
  have s5 := double_stage (W > 16) fadd hfadd (HCC.ds_swizzle_src 0x401f)
    (fun T => HCC.swizzle_halves T 0x401f) (fun _ _ => rfl) _ _ s4.1 s4.2
  have s6 := double_stage (W > 32) fadd hfadd (fun _ => 32)
    (fun T => HCC.readlane_halves T 32) (fun _ _ => rfl) _ _ s5.1 s5.2
  have hval := congrArg HCC.dbl_b32.val (s6.1 l)
  rw [dbl_b32_val_of_val _ (s6.2 l)] at hval
  exact hval

/-- C7: in `rocsparse_wfreduce_sum<W>(double)`, at every step and on every lane,
the union `upper_sum` assembled from the two separately exchanged words is the
union `temp_sum` of the step's one source lane, word for word (low stays low,
high stays high), so its 64-bit pattern is that lane's pattern; splitting a
64-bit pattern into two words and reassembling it is the identity; and the whole
reduction therefore computes what moving whole patterns would compute. -/
theorem double_halves_same_partner (fadd : Nat → Nat → Nat) (W : Nat) (sum : Nat → Nat)
    (temp_sum : Nat → HCC.dbl_b32) (pattern l p : Nat)
    (hp : p < 2 ^ 64) (hsum : ∀ k, sum k < 2 ^ 64) (hfadd : ∀ a b, fadd a b < 2 ^ 64) :
    (HCC.swizzle_halves temp_sum pattern l).b32_0
        = (temp_sum (HCC.ds_swizzle_src pattern l)).b32_0 ∧
    (HCC.swizzle_halves temp_sum pattern l).b32_1
        = (temp_sum (HCC.ds_swizzle_src pattern l)).b32_1 ∧
    (HCC.swizzle_halves temp_sum pattern l).val
        = (temp_sum (HCC.ds_swizzle_src pattern l)).val ∧
    (HCC.readlane_halves temp_sum 32 l).b32_0 = (temp_sum 32).b32_0 ∧
    (HCC.readlane_halves temp_sum 32 l).b32_1 = (temp_sum 32).b32_1 ∧
    (HCC.readlane_halves temp_sum 32 l).val = (temp_sum 32).val ∧
    (HCC.dbl_b32.of_val p).val = p ∧
    HCC.rocsparse_wfreduce_sum_double fadd W sum l
      = HCC.wfreduce_sum_whole_pattern fadd W sum l :=
  ⟨rfl, rfl, rfl, rfl, rfl, rfl, dbl_b32_val_of_val p hp,
    wfreduce_sum_double_eq_whole fadd W sum hsum hfadd l⟩

/-- Witness of C7: pattern `0x101f`, lane 5, the pattern of the double `1.0`, and
a stand-in addition on patterns that stays below `2^64`. -/
theorem double_halves_same_partner_witness :
    (0x3ff0000000000000 < 2 ^ 64) ∧
    (∀ k : Nat, (fun k => k % 2 ^ 64) k < 2 ^ 64) ∧
    (∀ a b : Nat, (fun a b => (a + b) % 2 ^ 64) a b < 2 ^ 64) ∧
    (HCC.dbl_b32.of_val 0x3ff0000000000000).val = 0x3ff0000000000000 :=
  ⟨by decide, fun k => Nat.mod_lt _ (by decide), fun a b => Nat.mod_lt _ (by decide),
    (double_halves_same_partner (fun a b => (a + b) % 2 ^ 64) 8 (fun k => k % 2 ^ 64)
      (fun k => HCC.dbl_b32.of_val k) 0x101f 5 0x3ff0000000000000 (by decide)
      (fun k => Nat.mod_lt _ (by decide)) (fun a b => Nat.mod_lt _ (by decide))).2.2.2.2.2.2.1⟩

/-! ## 24-bit multiply -/

/-- On 32-bit registers `(x << 8) >> 8` is the low 24 bits of `x`, sign-extended. -/
theorem shl_shr_int32 (x s : Int) (hs : -2 ^ 23 ≤ s ∧ s < 2 ^ 23)
    (hsx : (x - s) % 2 ^ 24 = 0) : wrap_int32 (x * 2 ^ 8) / 2 ^ 8 = s := by
  simp only [wrap_int32]
  norm_num at hs hsx ⊢
  omega

/-- On 64-bit registers `(x << 40) >> 40` is the low 24 bits of `x`, sign-extended. -/
theorem shl_shr_int64 (x s : Int) (hs : -2 ^ 23 ≤ s ∧ s < 2 ^ 23)
    (hsx : (x - s) % 2 ^ 24 = 0) : wrap_int64 (x * 2 ^ 40) / 2 ^ 40 = s := by
  simp only [wrap_int64]
  norm_num at hs hsx ⊢
  omega

/-- The product of two sign-extended 24-bit values fits in 47 bits. -/
theorem mul_sext24_bound (s t : Int) (hs : -2 ^ 23 ≤ s ∧ s < 2 ^ 23)
    (ht : -2 ^ 23 ≤ t ∧ t < 2 ^ 23) : -2 ^ 46 ≤ s * t ∧ s * t ≤ 2 ^ 46 := by
  have h1 : |s| ≤ 2 ^ 23 := abs_le.mpr ⟨hs.1, le_of_lt hs.2⟩
  have h2 : |t| ≤ 2 ^ 23 := abs_le.mpr ⟨ht.1, le_of_lt ht.2⟩
  have h3 : |s * t| ≤ 2 ^ 23 * 2 ^ 23 := by
    rw [abs_mul]
    exact mul_le_mul h1 h2 (abs_nonneg _) (by norm_num)
  have h4 := abs_le.mp h3
  norm_num at h4 ⊢
  exact h4

/-- A value of at most 47 bits is not changed by a 64-bit register. -/
theorem wrap_int64_small (p : Int) (hp : -2 ^ 46 ≤ p ∧ p ≤ 2 ^ 46) : wrap_int64 p = p := by
  simp only [wrap_int64]
  norm_num at hp ⊢
  omega

/-- Wrapping before a 32-bit addition does not change the wrapped sum. -/
theorem wrap_int32_add (a z : Int) : wrap_int32 (wrap_int32 a + z) = wrap_int32 (a + z) := by
  simp only [wrap_int32]
  norm_num
  omega

/-- The 32-bit overload on operands congruent to `s` and `t` modulo `2^24`. -/
theorem mul24_int32_eq (x y s t : Int) (hs : -2 ^ 23 ≤ s ∧ s < 2 ^ 23)
    (hsx : (x - s) % 2 ^ 24 = 0) (ht : -2 ^ 23 ≤ t ∧ t < 2 ^ 23)
    (hty : (y - t) % 2 ^ 24 = 0) : rocsparse_mul24_int32 x y = wrap_int32 (s * t) := by
  rw [rocsparse_mul24_int32, shl_shr_int32 x s hs hsx, shl_shr_int32 y t ht hty]

/-- The 64-bit overload on operands congruent to `s` and `t` modulo `2^24`. -/
theorem mul24_int64_eq (x y s t : Int) (hs : -2 ^ 23 ≤ s ∧ s < 2 ^ 23)
    (hsx : (x - s) % 2 ^ 24 = 0) (ht : -2 ^ 23 ≤ t ∧ t < 2 ^ 23)
    (hty : (y - t) % 2 ^ 24 = 0) : rocsparse_mul24_int64 x y = s * t := by
  rw [rocsparse_mul24_int64, shl_shr_int64 x s hs hsx, shl_shr_int64 y t ht hty,
    wrap_int64_small _ (mul_sext24_bound s t hs ht)]

/-- C8: with `s` and `t` the integers of `[-2^23, 2^23)` congruent to `x` and `y`
modulo `2^24` (the low 24 bits, sign-extended), `rocsparse_mul24` returns
`s * t`, wrapped to 32 bits by the `int32_t` overload and exact in the `int64_t`
overload; so operands `x'`, `y'` with the same low 24 bits give the same result;
and `rocsparse_mad24(x, y, z)` is `rocsparse_mul24(x, y) + z` in the register
width, with `z` entering whole. -/
theorem mul24_low24_sign_extended (x y z s t x' y' : Int)
    (hs : -2 ^ 23 ≤ s ∧ s < 2 ^ 23) (hsx : (x - s) % 2 ^ 24 = 0)
    (ht : -2 ^ 23 ≤ t ∧ t < 2 ^ 23) (hty : (y - t) % 2 ^ 24 = 0)
    (hx' : x' % 2 ^ 24 = x % 2 ^ 24) (hy' : y' % 2 ^ 24 = y % 2 ^ 24) :
    rocsparse_mul24_int32 x y = wrap_int32 (s * t) ∧
    rocsparse_mul24_int64 x y = s * t ∧
    rocsparse_mul24_int32 x' y' = rocsparse_mul24_int32 x y ∧
    rocsparse_mul24_int64 x' y' = rocsparse_mul24_int64 x y ∧
    rocsparse_mad24_int32 x y z = wrap_int32 (rocsparse_mul24_int32 x y + z) ∧
    rocsparse_mad24_int32 x y z = wrap_int32 (s * t + z) ∧
    rocsparse_mad24_int64 x y z = wrap_int64 (rocsparse_mul24_int64 x y + z) ∧
    rocsparse_mad24_int64 x y z = wrap_int64 (s * t + z) := by
  have hsx' : (x' - s) % 2 ^ 24 = 0 := by
    norm_num at hsx hx' ⊢
    omega
  have hty' : (y' - t) % 2 ^ 24 = 0 := by
    norm_num at hty hy' ⊢
    omega
  have e32 := mul24_int32_eq x y s t hs hsx ht hty
  have e64 := mul24_int64_eq x y s t hs hsx ht hty
  refine ⟨e32, e64, ?_, ?_, rfl, ?_, rfl, ?_⟩
  · rw [e32, mul24_int32_eq x' y' s t hs hsx' ht hty']
  · rw [e64, mul24_int64_eq x' y' s t hs hsx' ht hty']
  · rw [rocsparse_mad24_int32, e32, wrap_int32_add]
  · rw [rocsparse_mad24_int64, e64]

/-- Witness of C8: `x = 0x1800003` has low 24 bits `0x800003`, i.e. `s = -8388605`;
`y = -2`, `z = 2^30`, and `x' = 0x800003`, `y' = 0xfffffe` share the low 24 bits. -/
theorem mul24_low24_sign_extended_witness :
    (-(2 : Int) ^ 23 ≤ -8388605 ∧ (-8388605 : Int) < 2 ^ 23) ∧
    ((0x1800003 : Int) - (-8388605)) % 2 ^ 24 = 0 ∧
    ((0x800003 : Int) % 2 ^ 24 = 0x1800003 % 2 ^ 24) ∧
    rocsparse_mul24_int32 0x1800003 (-2) = wrap_int32 (-8388605 * -2) ∧
    rocsparse_mul24_int64 0x1800003 (-2) = -8388605 * -2 ∧
    rocsparse_mad24_int32 0x1800003 (-2) (2 ^ 30) = wrap_int32 (-8388605 * -2 + 2 ^ 30) :=
  have h := mul24_low24_sign_extended 0x1800003 (-2) (2 ^ 30) (-8388605) (-2) 0x800003 0xfffffe
    (by decide) (by decide) (by decide) (by decide) (by decide) (by decide)
  ⟨by decide, by decide, by decide, h.1, h.2.1, h.2.2.2.2.2.1⟩

/-- C9: for operands that fit in 24 significant bits, `rocsparse_mul24` is the
ordinary multiplication of the overload's integer type (the 32-bit product for
`int32_t`, the exact product for `int64_t`), and `rocsparse_mad24(x, y, z)` is
`x * y + z` in the register width, for every `z`. -/
theorem mul24_exact_on_24_bit_operands (x y z : Int)
    (hx : -2 ^ 23 ≤ x ∧ x < 2 ^ 23) (hy : -2 ^ 23 ≤ y ∧ y < 2 ^ 23) :
    rocsparse_mul24_int32 x y = wrap_int32 (x * y) ∧
    rocsparse_mul24_int64 x y = x * y ∧
    rocsparse_mul24_int64 x y = wrap_int64 (x * y) ∧
    rocsparse_mad24_int32 x y z = wrap_int32 (x * y + z) ∧
    rocsparse_mad24_int64 x y z = wrap_int64 (x * y + z) := by
  have hxx : (x - x) % 2 ^ 24 = 0 := by simp
  have hyy : (y - y) % 2 ^ 24 = 0 := by simp
  have e32 := mul24_int32_eq x y x y hx hxx hy hyy
  have e64 := mul24_int64_eq x y x y hx hxx hy hyy
  refine ⟨e32, e64, ?_, ?_, ?_⟩
  · rw [e64, wrap_int64_small _ (mul_sext24_bound x y hx hy)]
  · rw [rocsparse_mad24_int32, e32, wrap_int32_add]
  · rw [rocsparse_mad24_int64, e64]

/-- Witness of C9 at `x = -8388608`, `y = 8388607`, `z = 5`. -/
theorem mul24_exact_on_24_bit_operands_witness :
    (-(2 : Int) ^ 23 ≤ -8388608 ∧ (-8388608 : Int) < 2 ^ 23) ∧
    (-(2 : Int) ^ 23 ≤ 8388607 ∧ (8388607 : Int) < 2 ^ 23) ∧
    (rocsparse_mul24_int32 (-8388608) 8388607 = wrap_int32 (-8388608 * 8388607) ∧
      rocsparse_mul24_int64 (-8388608) 8388607 = -8388608 * 8388607 ∧
      rocsparse_mul24_int64 (-8388608) 8388607 = wrap_int64 (-8388608 * 8388607) ∧
      rocsparse_mad24_int32 (-8388608) 8388607 5 = wrap_int32 (-8388608 * 8388607 + 5) ∧
      rocsparse_mad24_int64 (-8388608) 8388607 5 = wrap_int64 (-8388608 * 8388607 + 5)) :=
  ⟨by decide, by decide,
    mul24_exact_on_24_bit_operands (-8388608) 8388607 5 (by decide) (by decide)⟩

/-! ## Atomic add -/

/-- An iteration leaves the loop exactly when the location still holds the
pattern of the first read, and it then stores the pattern of `val` plus the value
of the second read. -/
theorem atomic_add_iteration_exit (fadd : Nat → Nat → Nat) (val read1 read2 mem : Nat) :
    ((atomic_add_iteration fadd val read1 read2 mem).1 = true ↔ mem = read1) ∧
    (mem = read1 → (atomic_add_iteration fadd val read1 read2 mem).2 = fadd val read2) := by
  constructor
  · simp [atomic_add_iteration, atomicCAS]
  · intro h
    simp [atomic_add_iteration, atomicCAS, h]

/-- When both plain reads of an iteration see the same pattern, a successful
compare-and-swap stores the pattern of `val` plus the value it compared against. -/
theorem atomic_add_iteration_same_reads (fadd : Nat → Nat → Nat) (val read mem : Nat)
    (hexit : (atomic_add_iteration fadd val read read mem).1 = true) :
    (atomic_add_iteration fadd val read read mem).2 = fadd val read :=
  (atomic_add_iteration_exit fadd val read read mem).2
    ((atomic_add_iteration_exit fadd val read read mem).1.mp hexit)

/-- C10 fails on the code: with `val = 1.0f`, the location holding `1.0f`
(`0x3f800000`) at the first read, `2.0f` (`0x40000000`) at the second read and
`1.0f` again when the compare-and-swap runs, the swap succeeds and stores the
pattern of `3.0f` (`0x40400000`), while `val` plus the value it compared against
is `2.0f` (`0x40000000`). -/
theorem atomic_add_iteration_two_reads_differ :
    atomic_add_iteration fadd_small_int 0x3f800000 0x3f800000 0x40000000 0x3f800000
      = (true, 0x40400000) ∧
    fadd_small_int 0x3f800000 0x3f800000 = 0x40000000 ∧
    (atomic_add_iteration fadd_small_int 0x3f800000 0x3f800000 0x40000000 0x3f800000).2
      ≠ fadd_small_int 0x3f800000 0x3f800000 := by
  refine ⟨by decide, by decide, by decide⟩

/-! ## Binary32 patterns of integers -/

/-- Among `0 .. m-1` exactly `L` numbers are below `L`, when `L ≤ m`. -/
theorem range_filter_lt_length (m L : Nat) (hL : L ≤ m) :
    ((List.range m).filter (fun k => decide (k < L))).length = L := by
  induction m with
  | zero => simp at hL; subst hL; simp
  | succ m ih =>
    rw [List.range_succ, List.filter_append, List.length_append]
    by_cases h : L ≤ m
    · rw [ih h]
      have : ¬ m < L := by omega
      simp [this]
    · have hLm : L = m + 1 := by omega
      subst hLm
      have h1 : ((List.range m).filter (fun k => decide (k < m + 1))) = List.range m := by
        rw [List.filter_eq_self]
        intro a ha
        have := List.mem_range.mp ha
        simp; omega
      rw [h1]
      simp

/-- The count of powers of two up to `a` is the position of the leading bit of `a`. -/
theorem leading_bit_count (m a L : Nat) (hL : L ≤ m) (h1 : 2 ^ L ≤ a) (h2 : a < 2 ^ (L + 1)) :
    ((List.range m).filter (fun k => decide (2 ^ (k + 1) ≤ a))).length = L := by
  have hp : (fun k => decide (2 ^ (k + 1) ≤ a)) = (fun k => decide (k < L)) := by
    funext k
    congr 1
    apply propext
    constructor
    · intro h
      by_contra hc
      have hle : L + 1 ≤ k + 1 := by omega
      have := Nat.pow_le_pow_right (show 0 < 2 by decide) hle
      omega
    · intro h
      have hle : k + 1 ≤ L := by omega
      have := Nat.pow_le_pow_right (show 0 < 2 by decide) hle
      omega
  rw [hp]
  exact range_filter_lt_length m L hL

/-- Every positive number lies between two consecutive powers of two. -/
theorem exists_leading_bit (a : Nat) (ha : 0 < a) : ∃ L, 2 ^ L ≤ a ∧ a < 2 ^ (L + 1) :=
  ⟨Nat.log 2 a, Nat.pow_log_le_self 2 (by omega), Nat.lt_pow_succ_log_self (by decide) a⟩

/-- The pattern of a positive integer below `2^24` with leading bit `L`. -/
theorem float_as_uint_pos (k L : Nat) (h1 : 2 ^ L ≤ k) (h2 : k < 2 ^ (L + 1)) (hL : L ≤ 23) :
    float_as_uint (k : Int) = (127 + L) * 2 ^ 23 + (k * 2 ^ (23 - L) - 2 ^ 23) := by
  have hk : 0 < k := lt_of_lt_of_le (Nat.pow_pos (by decide)) h1
  have hne : ((k : Nat) : Int) ≠ 0 := by omega
  have hnn : ¬ ((k : Nat) : Int) < 0 := by omega
  simp only [float_as_uint, if_neg hne, if_neg hnn, Int.natAbs_ofNat,
    leading_bit_count 24 k L (by omega) h1 h2]
  omega

/-- Decoding the pattern of an integer below `2^24` gives the integer back, and
the exponent field of the pattern is at most 150. -/
theorem uint_as_float_float_as_uint (k : Nat) (hk : k < 2 ^ 24) :
    uint_as_float (float_as_uint (k : Int)) = k ∧
    float_as_uint (k : Int) / 2 ^ 23 % 256 ≤ 150 := by
  by_cases h0 : k = 0
  · subst h0
    constructor <;> decide
  · obtain ⟨L, h1, h2⟩ := exists_leading_bit k (by omega)
    have hL : L ≤ 23 := by
      by_contra hc
      have := Nat.pow_le_pow_right (show 0 < 2 by decide) (show 24 ≤ L by omega)
      omega
    rw [float_as_uint_pos k L h1 h2 hL]
    obtain ⟨d, hd⟩ : ∃ d, 23 = L + d := ⟨23 - L, by omega⟩
    have hd2 : 23 - L = d := by omega
    rw [hd2]
    have hc : 0 < 2 ^ d := Nat.pow_pos (by decide)
    have hlo : 2 ^ 23 ≤ k * 2 ^ d := by
      calc 2 ^ 23 = 2 ^ L * 2 ^ d := by rw [← pow_add, ← hd]
        _ ≤ k * 2 ^ d := Nat.mul_le_mul_right _ h1
    have hhi : k * 2 ^ d < 2 ^ 24 := by
      calc k * 2 ^ d < 2 ^ (L + 1) * 2 ^ d := Nat.mul_lt_mul_of_pos_right h2 hc
        _ = 2 ^ 24 := by rw [← pow_add]; congr 1; omega
    generalize hM : k * 2 ^ d = M at hlo hhi
    have e1 : ((127 + L) * 2 ^ 23 + (M - 2 ^ 23)) / 2 ^ 23 % 256 = 127 + L := by
      norm_num at hlo hhi ⊢
      omega
    have e2 : ((127 + L) * 2 ^ 23 + (M - 2 ^ 23)) % 2 ^ 23 = M - 2 ^ 23 := by
      norm_num at hlo hhi ⊢
      omega
    have e3 : ((127 + L) * 2 ^ 23 + (M - 2 ^ 23)) / 2 ^ 31 % 2 = 0 := by
      norm_num at hlo hhi ⊢
      omega
    have e4 : 150 - (127 + L) = d := by omega
    have e5 : 2 ^ 23 + (M - 2 ^ 23) = M := by omega
    have e6 : M / 2 ^ d = k := by
      rw [← hM]; exact Nat.mul_div_cancel k hc
    constructor
    · simp only [uint_as_float, e1, e2, e3, e4, e5, e6]
      simp
    · rw [e1]; omega

/-- Encoding with rounding and decoding agree on the integers `0 .. 2^24`. -/
theorem uint_as_float_wide_rne (k : Nat) (hk : k ≤ 2 ^ 24) :
    uint_as_float_wide (float_as_uint_rne (k : Int)) = k := by
  by_cases h : k < 2 ^ 24
  · have hr : float_as_uint_rne (k : Int) = float_as_uint (k : Int) := by
      simp only [float_as_uint_rne, Int.natAbs_ofNat, if_pos h]
    obtain ⟨h1, h2⟩ := uint_as_float_float_as_uint k h
    rw [hr]
    simp only [uint_as_float_wide, if_pos h2]
    exact h1
  · have hk2 : k = 2 ^ 24 := by omega
    subst hk2
    decide

/-- Adding `1.0f` to the float `k` is exact as long as `k + 1 ≤ 2^24`. -/
theorem fadd_binary32_one (k : Nat) (hk : k < 2 ^ 24) :
    fadd_binary32_int (float_as_uint_rne 1) (float_as_uint_rne (k : Int))
      = float_as_uint_rne ((k + 1 : Nat) : Int) := by
  have h1 : uint_as_float_wide (float_as_uint_rne 1) = 1 := by decide
  rw [fadd_binary32_int, h1, uint_as_float_wide_rne k (by omega)]
  congr 1
  push_cast
  ring

/-- The patterns of the integers `0 .. 2^24` are pairwise different. -/
theorem float_as_uint_rne_injective (a b : Nat) (ha : a ≤ 2 ^ 24) (hb : b ≤ 2 ^ 24)
    (h : float_as_uint_rne (a : Int) = float_as_uint_rne (b : Int)) : a = b := by
  have h2 := congrArg uint_as_float_wide h
  rw [uint_as_float_wide_rne a ha, uint_as_float_wide_rne b hb] at h2
  exact_mod_cast h2

/-- At `2^24` adding `1.0f` rounds back to `2^24`. -/
theorem fadd_binary32_saturates :
    fadd_binary32_int (float_as_uint_rne 1) (float_as_uint_rne (2 ^ 24 : Nat))
      = float_as_uint_rne (2 ^ 24 : Nat) := by
  decide

/-! ## Atomic add: concurrent callers -/

/-- Counting after one element of a list is replaced. -/
theorem countP_set_of_get (p : AddThread → Bool) :
    ∀ (l : List AddThread) (t : Nat) (a b : AddThread), l.get? t = some a →
      (l.set t b).countP p + (if p a then 1 else 0) = l.countP p + (if p b then 1 else 0) := by
  intro l
  induction l with
  | nil => intro t a b h; simp at h
  | cons x xs ih =>
    intro t a b h
    cases t with
    | zero =>
      simp at h
      subst h
      simp only [List.set_cons_zero, List.countP_cons]
      omega
    | succ t =>
      simp at h
      have := ih t a b (by simpa using h)
      simp only [List.set_cons_succ, List.countP_cons]
      omega

/-- What a thread holds stays the pattern of an earlier count when the count grows. -/
theorem thread_ok_mono (enc : Nat → Nat) (c c2 : Nat) (hc : c ≤ c2) (th : AddThread)
    (h : thread_ok enc c th) : thread_ok enc c2 th := by
  cases th with
  | at_read1 => trivial
  | at_read2 r1 =>
    obtain ⟨j, hj, e⟩ := h
    exact ⟨j, le_trans hj hc, e⟩
  | at_cas r1 r2 =>
    obtain ⟨j, i, hji, hi, e1, e2⟩ := h
    exact ⟨j, i, hji, le_trans hi hc, e1, e2⟩
  | returned => trivial

/-- Replacing the state of thread `t`, which was `a`, by `b`. -/
theorem returned_count_set (s : AddSystem) (t : Nat) (a b : AddThread) (m : Nat)
    (hget : s.threads.get? t = some a) :
    AddSystem.returned_count ⟨m, s.threads.set t b⟩ + (if a = AddThread.returned then 1 else 0)
      = s.returned_count + (if b = AddThread.returned then 1 else 0) := by
  have h := countP_set_of_get (fun th => decide (th = AddThread.returned)) s.threads t a b hget
  simpa [AddSystem.returned_count] using h

/-- At most all calls have returned. -/
theorem returned_count_le (s : AddSystem) : s.returned_count ≤ s.threads.length :=
  List.countP_le_length _

/-- One access of any thread keeps the counting invariant. -/
theorem count_inv_step (enc : Nat → Nat) (fadd : Nat → Nat → Nat) (N : Nat)
    (henc : ∀ a b, a ≤ N → b ≤ N → enc a = enc b → a = b)
    (hadd : ∀ k, k < N → fadd (enc 1) (enc k) = enc (k + 1))
    (s : AddSystem) (t : Nat) (h : count_inv enc N s) :
    count_inv enc N (system_step fadd (enc 1) s t) := by
  obtain ⟨hlen, hmem, hth⟩ := h
  unfold system_step
  cases hget : s.threads.get? t with
  | none => exact ⟨hlen, hmem, hth⟩
  | some th =>
    have hin : th ∈ s.threads := List.get?_mem hget
    have hok := hth th hin
    have hcle : s.returned_count ≤ N := hlen ▸ returned_count_le s
    -- generic facts about replacing thread `t`
    have hothers : ∀ (b : AddThread) (c2 : Nat), s.returned_count ≤ c2 →
        thread_ok enc c2 b → ∀ x ∈ s.threads.set t b, thread_ok enc c2 x := by
      intro b c2 hc hb x hx
      rcases List.mem_or_eq_of_mem_set hx with hx | hx
      · exact thread_ok_mono enc _ _ hc x (hth x hx)
      · exact hx ▸ hb
    cases th with
    | at_read1 =>
      have hc := returned_count_set s t _ (AddThread.at_read2 s.mem) s.mem hget
      simp at hc
      refine ⟨by simp [hlen], ?_, ?_⟩
      · simp only [thread_step]; rw [hc]; exact hmem
      · simp only [thread_step]; rw [hc]
        exact hothers _ _ (le_refl _) ⟨s.returned_count, le_refl _, hmem⟩
    | at_read2 r1 =>
      have hc := returned_count_set s t _ (AddThread.at_cas r1 s.mem) s.mem hget
      simp at hc
      obtain ⟨j, hj, e⟩ := hok
      refine ⟨by simp [hlen], ?_, ?_⟩
      · simp only [thread_step]; rw [hc]; exact hmem
      · simp only [thread_step]; rw [hc]
        exact hothers _ _ (le_refl _) ⟨j, s.returned_count, hj, le_refl _, e, hmem⟩
    | at_cas r1 r2 =>
      obtain ⟨j, i, hji, hi, e1, e2⟩ := hok
      have hlt : s.returned_count < N := by
        have hc := returned_count_set s t _ AddThread.returned s.mem hget
        simp at hc
        have hle := returned_count_le ⟨s.mem, s.threads.set t AddThread.returned⟩
        simp [hlen] at hle
        omega
      by_cases hcas : s.mem = r1
      · -- the swap succeeds
        have hjc : j = s.returned_count := by
          apply henc j _ (by omega) hcle
          rw [← e1, ← hcas, hmem]
        have hic : i = s.returned_count := by omega
        have hnew : fadd (enc 1) r2 = enc (s.returned_count + 1) := by
          rw [e2, hic]; exact hadd _ hlt
        have hstep : thread_step fadd (enc 1) s.mem (AddThread.at_cas r1 r2)
            = (enc (s.returned_count + 1), AddThread.returned) := by
          simp [thread_step, atomic_add_iteration, atomicCAS, hcas, hnew]
        simp only [hstep]
        have hc := returned_count_set s t _ AddThread.returned
          (enc (s.returned_count + 1)) hget
        simp at hc
        refine ⟨by simp [hlen], ?_, ?_⟩
        · simp only; rw [hc]
        · simp only; rw [hc]
          exact hothers _ _ (Nat.le_succ _) trivial
      · -- the swap fails
        have hstep : thread_step fadd (enc 1) s.mem (AddThread.at_cas r1 r2)
            = (s.mem, AddThread.at_read1) := by
          simp [thread_step, atomic_add_iteration, atomicCAS, hcas]
        simp only [hstep]
        have hc := returned_count_set s t _ AddThread.at_read1 s.mem hget
        simp at hc
        refine ⟨by simp [hlen], ?_, ?_⟩
        · simp only; rw [hc]; exact hmem
        · simp only; rw [hc]
          exact hothers _ _ (le_refl _) trivial
    | returned =>
      have hc := returned_count_set s t _ AddThread.returned s.mem hget
      simp at hc
      refine ⟨by simp [hlen], ?_, ?_⟩
      · simp only [thread_step]; rw [hc]; exact hmem
      · simp only [thread_step]; rw [hc]
        exact hothers _ _ (le_refl _) trivial

/-- Every interleaving keeps the counting invariant. -/
theorem count_inv_run (enc : Nat → Nat) (fadd : Nat → Nat → Nat) (N : Nat)
    (henc : ∀ a b, a ≤ N → b ≤ N → enc a = enc b → a = b)
    (hadd : ∀ k, k < N → fadd (enc 1) (enc k) = enc (k + 1)) (sched : List Nat) :
    ∀ s : AddSystem, count_inv enc N s → count_inv enc N (run_schedule fadd (enc 1) s sched) := by
  induction sched with
  | nil => intro s h; exact h
  | cons t ts ih =>
    intro s h
    exact ih _ (count_inv_step enc fadd N henc hadd s t h)

/-- The counting invariant holds before any call has started. -/
theorem count_inv_start (enc : Nat → Nat) (N : Nat) : count_inv enc N (AddSystem.start N (enc 0)) := by
  refine ⟨by simp [AddSystem.start], ?_, ?_⟩
  · have h0 : List.countP (fun th => decide (th = AddThread.returned))
        (List.replicate N AddThread.at_read1) = 0 := by
      rw [List.countP_eq_zero]
      intro a ha
      rw [(List.mem_replicate.mp ha).2]
      decide
    simp only [AddSystem.start, AddSystem.returned_count, h0]
  · intro th hth
    simp [AddSystem.start] at hth
    rw [hth.2]; trivial

/-- When every call has returned, the count of returned calls is the number of threads. -/
theorem returned_count_of_all (s : AddSystem) (h : s.all_returned) :
    s.returned_count = s.threads.length := by
  unfold AddSystem.returned_count
  rw [List.countP_eq_length]
  intro a ha
  simpa using h a ha

/-- With exact addition of `1.0` on the counts below `N`, every interleaving that
lets all `N` calls return leaves the pattern of `N` in the location. -/
theorem atomic_add_counts (enc : Nat → Nat) (fadd : Nat → Nat → Nat) (N : Nat)
    (henc : ∀ a b, a ≤ N → b ≤ N → enc a = enc b → a = b)
    (hadd : ∀ k, k < N → fadd (enc 1) (enc k) = enc (k + 1)) (sched : List Nat)
    (hdone : (run_schedule fadd (enc 1) (AddSystem.start N (enc 0)) sched).all_returned) :
    (run_schedule fadd (enc 1) (AddSystem.start N (enc 0)) sched).mem = enc N := by
  obtain ⟨hlen, hmem, _⟩ := count_inv_run enc fadd N henc hadd sched _ (count_inv_start enc N)
  rw [hmem, returned_count_of_all _ hdone, hlen]

/-- A step of a thread that exists. -/
theorem system_step_of_get (fadd : Nat → Nat → Nat) (val : Nat) (s : AddSystem) (t : Nat)
    (th : AddThread) (h : s.threads.get? t = some th) :
    system_step fadd val s t
      = ⟨(thread_step fadd val s.mem th).1, s.threads.set t (thread_step fadd val s.mem th).2⟩ := by
  simp only [system_step, h]

/-- Reading back the state just written for thread `t`. -/
theorem get_set_self (l : List AddThread) (t : Nat) (a b : AddThread)
    (h : l.get? t = some a) : (l.set t b).get? t = some b := by
  have hlt : t < l.length := by
    by_contra hc
    rw [List.get?_eq_none.mpr (by omega)] at h
    exact absurd h (by simp)
  simp [hlt]

/-- Writing the state of thread `t` leaves the other threads alone. -/
theorem get_set_other (l : List AddThread) (t u : Nat) (b : AddThread) (h : t ≠ u) :
    (l.set t b).get? u = l.get? u := by
  simp [List.getElem?_set_ne h]

/-- A thread that runs its three accesses without interruption adds once and
returns. -/
theorem thread_runs_alone (fadd : Nat → Nat → Nat) (val : Nat) (s : AddSystem) (t : Nat)
    (h : s.threads.get? t = some AddThread.at_read1) :
    run_schedule fadd val s [t, t, t]
      = ⟨fadd val s.mem, s.threads.set t AddThread.returned⟩ := by
  have h1 := system_step_of_get fadd val s t _ h
  have g1 := get_set_self s.threads t _ (AddThread.at_read2 s.mem) h
  have h2 := system_step_of_get fadd val
    ⟨s.mem, s.threads.set t (AddThread.at_read2 s.mem)⟩ t _ g1
  have g2 := get_set_self (s.threads.set t (AddThread.at_read2 s.mem)) t _
    (AddThread.at_cas s.mem s.mem) g1
  have h3 := system_step_of_get fadd val
    ⟨s.mem, (s.threads.set t (AddThread.at_read2 s.mem)).set t (AddThread.at_cas s.mem s.mem)⟩
    t _ g2
  simp only [thread_step] at h1 h2 h3
  simp only [run_schedule, List.foldl, h1, h2, h3]
  simp [atomic_add_iteration, atomicCAS, List.set_set]

/-- State of the system after the first `k` threads have run one after another. -/
theorem run_one_after_another (fadd : Nat → Nat → Nat) (val N m : Nat) :
    ∀ k, k ≤ N →
      (run_schedule fadd val (AddSystem.start N m) (one_after_another k)).mem
          = (fun x => fadd val x)^[k] m ∧
      (run_schedule fadd val (AddSystem.start N m) (one_after_another k)).threads.length = N ∧
      (∀ t, t < k →
        (run_schedule fadd val (AddSystem.start N m) (one_after_another k)).threads.get? t
          = some AddThread.returned) ∧
      (∀ t, k ≤ t → t < N →
        (run_schedule fadd val (AddSystem.start N m) (one_after_another k)).threads.get? t
          = some AddThread.at_read1) := by
  intro k
  induction k with
  | zero =>
    intro _
    refine ⟨rfl, by simp [run_schedule, one_after_another, AddSystem.start], ?_, ?_⟩
    · intro t ht; omega
    · intro t _ ht
      simp [run_schedule, one_after_another, AddSystem.start, ht]
  | succ k ih =>
    intro hk
    obtain ⟨hm, hlen, hdone, htodo⟩ := ih (by omega)
    have happ : run_schedule fadd val (AddSystem.start N m) (one_after_another (k + 1))
        = run_schedule fadd val
            (run_schedule fadd val (AddSystem.start N m) (one_after_another k)) [k, k, k] := by
      simp only [run_schedule, one_after_another, List.foldl_append]
    rw [happ, thread_runs_alone fadd val _ k (htodo k (le_refl _) (by omega))]
    refine ⟨?_, by simp [hlen], ?_, ?_⟩
    · simp only [hm, Function.iterate_succ_apply']
    · intro t ht
      by_cases htk : t = k
      · subst htk
        exact get_set_self _ t _ _ (htodo t (le_refl _) (by omega))
      · show (List.set _ _ _).get? t = _
        rw [get_set_other _ k t _ (Ne.symm htk)]
        exact hdone t (by omega)
    · intro t ht htN
      show (List.set _ _ _).get? t = _
      rw [get_set_other _ k t _ (by omega)]
      exact htodo t (by omega) htN

/-- After all `N` threads have run one after another, every call has returned
and the location holds the `N`-fold sum. -/
theorem run_all_one_after_another (fadd : Nat → Nat → Nat) (val N m : Nat) :
    (run_schedule fadd val (AddSystem.start N m) (one_after_another N)).all_returned ∧
    (run_schedule fadd val (AddSystem.start N m) (one_after_another N)).mem
      = (fun x => fadd val x)^[N] m := by
  obtain ⟨hm, hlen, hdone, _⟩ := run_one_after_another fadd val N m N (le_refl _)
  refine ⟨?_, hm⟩
  intro th hth
  obtain ⟨t, ht⟩ := List.get?_of_mem hth
  have htN : t < N := by
    by_contra hc
    rw [List.get?_eq_none.mpr (by omega)] at ht
    exact absurd ht (by simp)
  rw [hdone t htN] at ht
  exact (Option.some.inj ht).symm

/-- One uninterrupted access brings a thread one access closer to its return. -/
theorem solo_distance_step (fadd : Nat → Nat → Nat) (val mem : Nat) (th : AddThread) :
    solo_distance (thread_step fadd val mem th).1 (thread_step fadd val mem th).2
      = solo_distance mem th - 1 := by
  cases th with
  | at_read1 => simp [thread_step, solo_distance]
  | at_read2 r1 =>
    by_cases h : mem = r1 <;> simp [thread_step, solo_distance, h]
  | at_cas r1 r2 =>
    by_cases h : mem = r1 <;>
      simp [thread_step, solo_distance, atomic_add_iteration, atomicCAS, h]
  | returned => simp [thread_step, solo_distance]

/-- Only a returned thread is at distance zero. -/
theorem solo_distance_zero (mem : Nat) (th : AddThread) (h : solo_distance mem th = 0) :
    th = AddThread.returned := by
  cases th with
  | at_read1 => simp [solo_distance] at h
  | at_read2 r1 =>
    by_cases hm : mem = r1 <;> simp [solo_distance, hm] at h
  | at_cas r1 r2 =>
    by_cases hm : mem = r1 <;> simp [solo_distance, hm] at h
  | returned => rfl

/-- Thread `t` making `n` accesses in a row: the other threads keep their state
and thread `t` gets `n` accesses closer to its return. -/
theorem run_replicate (fadd : Nat → Nat → Nat) (val t : Nat) :
    ∀ (n : Nat) (s : AddSystem) (th : AddThread), s.threads.get? t = some th →
      (run_schedule fadd val s (List.replicate n t)).threads.length = s.threads.length ∧
      (∀ u, u ≠ t →
        (run_schedule fadd val s (List.replicate n t)).threads.get? u = s.threads.get? u) ∧
      ∃ th2, (run_schedule fadd val s (List.replicate n t)).threads.get? t = some th2 ∧
        solo_distance (run_schedule fadd val s (List.replicate n t)).mem th2
          = solo_distance s.mem th - n := by
  intro n
  induction n with
  | zero =>
    intro s th h
    exact ⟨rfl, fun _ _ => rfl, th, h, rfl⟩
  | succ n ih =>
    intro s th h
    have hstep := system_step_of_get fadd val s t th h
    have hrun : run_schedule fadd val s (List.replicate (n + 1) t)
        = run_schedule fadd val (system_step fadd val s t) (List.replicate n t) := rfl
    have hget : (system_step fadd val s t).threads.get? t
        = some (thread_step fadd val s.mem th).2 := by
      rw [hstep]
      exact get_set_self _ t _ _ h
    obtain ⟨hlen, hoth, th2, hth2, hd⟩ := ih (system_step fadd val s t) _ hget
    rw [hrun]
    refine ⟨?_, ?_, th2, hth2, ?_⟩
    · rw [hlen, hstep]; simp
    · intro u hu
      rw [hoth u hu, hstep]
      exact get_set_other _ t u _ (Ne.symm hu)
    · rw [hd]
      have hm : (system_step fadd val s t).mem = (thread_step fadd val s.mem th).1 := by
        rw [hstep]
      rw [hm, solo_distance_step]
      omega

/-- The retry loop can always be left: from every state of the system, the
interleaving `five_each` lets every call return. -/
theorem run_five_each (fadd : Nat → Nat → Nat) (val : Nat) (s : AddSystem) :
    ∀ k, k ≤ s.threads.length →
      (run_schedule fadd val s (five_each k)).threads.length = s.threads.length ∧
      ∀ u, u < k →
        (run_schedule fadd val s (five_each k)).threads.get? u = some AddThread.returned := by
  intro k
  induction k with
  | zero => intro _; exact ⟨rfl, fun u hu => absurd hu (Nat.not_lt_zero u)⟩
  | succ k ih =>
    intro hk
    obtain ⟨hlen, hdone⟩ := ih (by omega)
    have happ : run_schedule fadd val s (five_each (k + 1))
        = run_schedule fadd val (run_schedule fadd val s (five_each k)) (List.replicate 5 k) := by
      simp only [run_schedule, five_each, List.foldl_append]
    obtain ⟨th, hth⟩ : ∃ th, (run_schedule fadd val s (five_each k)).threads.get? k = some th := by
      have hlt : k < (run_schedule fadd val s (five_each k)).threads.length := by omega
      exact ⟨_, List.get?_eq_get hlt⟩
    obtain ⟨hlen2, hoth, th2, hth2, hd⟩ := run_replicate fadd val k 5 _ th hth
    rw [happ]
    refine ⟨by rw [hlen2, hlen], ?_⟩
    intro u hu
    by_cases huk : u = k
    · subst huk
      have hle : solo_distance (run_schedule fadd val s (five_each u)).mem th ≤ 5 := by
        cases th with
        | at_read1 => simp [solo_distance]
        | at_read2 r1 => simp only [solo_distance]; split <;> omega
        | at_cas r1 r2 => simp only [solo_distance]; split <;> omega
        | returned => simp [solo_distance]
      have hz : solo_distance
          (run_schedule fadd val (run_schedule fadd val s (five_each u))
            (List.replicate 5 u)).mem th2 = 0 := by
        rw [hd]; omega
      rw [hth2, solo_distance_zero _ th2 hz]
    · rw [hoth u huk]
      exact hdone u (by omega)

/-- From every state some interleaving lets every call return. -/
theorem can_always_finish (fadd : Nat → Nat → Nat) (val : Nat) (s : AddSystem) :
    (run_schedule fadd val s (five_each s.threads.length)).all_returned := by
  obtain ⟨hlen, hdone⟩ := run_five_each fadd val s s.threads.length (le_refl _)
  intro th hth
  obtain ⟨t, ht⟩ := List.get?_of_mem hth
  have htN : t < s.threads.length := by
    by_contra hc
    rw [List.get?_eq_none.mpr (by omega)] at ht
    exact absurd ht (by simp)
  rw [hdone t htN] at ht
  exact (Option.some.inj ht).symm

/-- Adding `1.0f` again and again, starting from `0.0f`, counts exactly up to
`2^24`. -/
theorem iterate_fadd_one (k : Nat) (hk : k ≤ 2 ^ 24) :
    (fun x => fadd_binary32_int (float_as_uint_rne 1) x)^[k] (float_as_uint_rne 0)
      = float_as_uint_rne (k : Int) := by
  induction k with
  | zero => rfl
  | succ k ih =>
    rw [Function.iterate_succ_apply', ih (by omega)]
    exact fadd_binary32_one k (by omega)

/-- C11, as stated, fails for the float overload at `N = 2^24 + 1`: when the
threads run one after another, each adding `1.0f` (`0x3f800000`) to the location
that starts at `0.0f`, all calls return and the location holds `0x4b800000`,
the float `16777216.0`, not `16777217.0`: the last addition rounds back. -/
theorem atomic_add_float_16777217_threads :
    uint_as_float_wide 0x3f800000 = 1 ∧
    (run_schedule fadd_binary32_int 0x3f800000 (AddSystem.start (2 ^ 24 + 1) 0)
      (one_after_another (2 ^ 24 + 1))).all_returned ∧
    (run_schedule fadd_binary32_int 0x3f800000 (AddSystem.start (2 ^ 24 + 1) 0)
      (one_after_another (2 ^ 24 + 1))).mem = 0x4b800000 ∧
    uint_as_float_wide 0x4b800000 = 16777216 := by
  have h1 : float_as_uint_rne 1 = 0x3f800000 := by decide
  have h0 : float_as_uint_rne 0 = 0 := by decide
  have hN : float_as_uint_rne ((2 ^ 24 : Nat) : Int) = 0x4b800000 := by decide
  have hit := iterate_fadd_one (2 ^ 24) (le_refl _)
  have hsat := fadd_binary32_saturates
  rw [h1, h0, hN] at hit
  rw [h1, hN] at hsat
  obtain ⟨hall, hmem⟩ :=
    run_all_one_after_another fadd_binary32_int 0x3f800000 (2 ^ 24 + 1) 0
  refine ⟨by decide, hall, ?_, by decide⟩
  rw [hmem, Function.iterate_succ_apply', hit]
  exact hsat

/-- C11, amended: let `enc k` be the bit pattern of the float `k.0`, let the
patterns of `0 .. N` be pairwise different and let adding `1.0` to a count below
`N` be exact (for the float overload: `N ≤ 2^24`). Then for every interleaving
of the memory accesses of `N` threads that each call
`rocsparse_atomic_add(ptr, 1.0)` once on the location initialised to `0.0`: if
all calls have returned, the location holds exactly `N.0`; and the interleaving
can always be continued so that all calls return, again with `N.0` in the
location. -/
theorem atomic_add_all_interleavings (N : Nat) (enc : Nat → Nat) (fadd : Nat → Nat → Nat)
    (sched : List Nat)
    (henc : ∀ a b, a ≤ N → b ≤ N → enc a = enc b → a = b)
    (hadd : ∀ k, k < N → fadd (enc 1) (enc k) = enc (k + 1)) :
    ((run_schedule fadd (enc 1) (AddSystem.start N (enc 0)) sched).all_returned →
      (run_schedule fadd (enc 1) (AddSystem.start N (enc 0)) sched).mem = enc N) ∧
    (run_schedule fadd (enc 1) (AddSystem.start N (enc 0))
      (sched ++ five_each N)).all_returned ∧
    (run_schedule fadd (enc 1) (AddSystem.start N (enc 0)) (sched ++ five_each N)).mem
      = enc N := by
  have hlen := (count_inv_run enc fadd N henc hadd sched _ (count_inv_start enc N)).1
  have hfin := can_always_finish fadd (enc 1)
    (run_schedule fadd (enc 1) (AddSystem.start N (enc 0)) sched)
  rw [hlen] at hfin
  have happ : run_schedule fadd (enc 1) (AddSystem.start N (enc 0)) (sched ++ five_each N)
      = run_schedule fadd (enc 1)
          (run_schedule fadd (enc 1) (AddSystem.start N (enc 0)) sched) (five_each N) := by
    simp only [run_schedule, List.foldl_append]
  refine ⟨atomic_add_counts enc fadd N henc hadd sched, ?_, ?_⟩
  · rw [happ]; exact hfin
  · exact atomic_add_counts enc fadd N henc hadd _ (by rw [happ]; exact hfin)

/-- Witness of the amended C11: the float overload with `N = 2^24` threads and
binary32 addition, for the interleaving that runs thread 0 up to its second
read and then lets the threads run one after another. -/
theorem atomic_add_all_interleavings_witness :
    (∀ a b : Nat, a ≤ 2 ^ 24 → b ≤ 2 ^ 24 →
      float_as_uint_rne (a : Int) = float_as_uint_rne (b : Int) → a = b) ∧
    (∀ k : Nat, k < 2 ^ 24 →
      fadd_binary32_int (float_as_uint_rne ((1 : Nat) : Int)) (float_as_uint_rne (k : Int))
        = float_as_uint_rne ((k + 1 : Nat) : Int)) ∧
    (run_schedule fadd_binary32_int (float_as_uint_rne ((1 : Nat) : Int))
      (AddSystem.start (2 ^ 24) (float_as_uint_rne ((0 : Nat) : Int)))
      ([0, 0] ++ five_each (2 ^ 24))).all_returned ∧
    (run_schedule fadd_binary32_int (float_as_uint_rne ((1 : Nat) : Int))
      (AddSystem.start (2 ^ 24) (float_as_uint_rne ((0 : Nat) : Int)))
      ([0, 0] ++ five_each (2 ^ 24))).mem = float_as_uint_rne ((2 ^ 24 : Nat) : Int) :=
  ⟨float_as_uint_rne_injective, fadd_binary32_one,
    (atomic_add_all_interleavings (2 ^ 24) (fun k => float_as_uint_rne (k : Int))
      fadd_binary32_int [0, 0] float_as_uint_rne_injective fadd_binary32_one).2⟩

/-! ## Block-level tree reduction: control flow and accesses of a lane -/

/-- The traced statement computes what `lane_step` computes. -/
theorem lane_step_traced_fst (op : Int → Int → Int) (B h i : Nat) (data : Buffer) :
    (lane_step_traced op B h i data).1 = lane_step op B h i data := by
  unfold lane_step_traced lane_step
  split <;> rfl

/-- The observed run computes what the kernel computes. -/
theorem lane_kernel_run_fst (op : Int → Int → Int) (B i : Nat) (data : Buffer) :
    (lane_kernel_run op B i data).1 = blockreduce op B data := by
  have key : ∀ (ths : List Nat) (st : Buffer × List LaneEvent),
      (ths.foldl
        (fun (st : Buffer × List LaneEvent) h =>
          if B > h then
            (block_step op B h st.1,
              st.2 ++ [LaneEvent.step h] ++ (lane_step_traced op B h i st.1).2
                ++ [LaneEvent.barrier])
          else st) st).1
      = ths.foldl (fun d h => if B > h then block_step op B h d else d) st.1 := by
    intro ths
    induction ths with
    | nil => intro st; rfl
    | cons h hs ih =>
      intro st
      simp only [List.foldl_cons]
      rw [ih]
      by_cases hB : B > h <;> simp [hB]
  exact key thresholds (data, [])

/-- The accesses of a guarded statement do not show in the control flow. -/
theorem control_flow_lane_step (op : Int → Int → Int) (B h i : Nat) (data : Buffer) :
    control_flow (lane_step_traced op B h i data).2 = [] := by
  unfold lane_step_traced control_flow
  split <;> rfl

/-- Control flow of a lane over a list of thresholds: one step and one barrier
for each threshold below the block size, in order. -/
theorem control_flow_fold (op : Int → Int → Int) (B i : Nat) :
    ∀ (ths : List Nat) (st : Buffer × List LaneEvent),
      control_flow (ths.foldl
        (fun (st : Buffer × List LaneEvent) h =>
          if B > h then
            (block_step op B h st.1,
              st.2 ++ [LaneEvent.step h] ++ (lane_step_traced op B h i st.1).2
                ++ [LaneEvent.barrier])
          else st) st).2
      = control_flow st.2 ++ steps_with_barriers (ths.filter (fun h => decide (h < B))) := by
  intro ths
  induction ths with
  | nil => intro st; simp [steps_with_barriers]
  | cons h hs ih =>
    intro st
    simp only [List.foldl_cons]
    rw [ih]
    by_cases hB : B > h
    · have hd : decide (h < B) = true := by simpa using hB
      have hcf : control_flow (st.2 ++ [LaneEvent.step h]
          ++ (lane_step_traced op B h i st.1).2 ++ [LaneEvent.barrier])
          = control_flow st.2 ++ [LaneEvent.step h, LaneEvent.barrier] := by
        have h0 := control_flow_lane_step op B h i st.1
        unfold control_flow at h0 ⊢
        simp only [List.filter_append, h0]
        simp
      simp only [if_pos hB, hcf, List.filter_cons, hd, if_true, steps_with_barriers]
      simp
    · have hd : decide (h < B) = false := by simpa using hB
      simp only [if_neg hB, List.filter_cons, hd]
      simp

/-- Number of barriers of a lane over a list of thresholds. -/
theorem barrier_count_fold (op : Int → Int → Int) (B i : Nat) :
    ∀ (ths : List Nat) (st : Buffer × List LaneEvent),
      (ths.foldl
        (fun (st : Buffer × List LaneEvent) h =>
          if B > h then
            (block_step op B h st.1,
              st.2 ++ [LaneEvent.step h] ++ (lane_step_traced op B h i st.1).2
                ++ [LaneEvent.barrier])
          else st) st).2.countP (fun e => decide (e = LaneEvent.barrier))
      = st.2.countP (fun e => decide (e = LaneEvent.barrier))
          + (ths.filter (fun h => decide (h < B))).length := by
  intro ths
  induction ths with
  | nil => intro st; simp
  | cons h hs ih =>
    intro st
    simp only [List.foldl_cons]
    rw [ih]
    by_cases hB : B > h
    · have hd : decide (h < B) = true := by simpa using hB
      have h0 : (lane_step_traced op B h i st.1).2.countP
          (fun e => decide (e = LaneEvent.barrier)) = 0 := by
        unfold lane_step_traced
        split <;> simp
      simp only [if_pos hB, List.countP_append, h0, List.filter_cons, hd, if_true,
        List.length_cons]
      simp
      omega
    · have hd : decide (h < B) = false := by simpa using hB
      simp only [if_neg hB, List.filter_cons, hd]
      simp

/-- Among `0 .. m-1` the numbers below `c` are `0 .. c-1`, when `c ≤ m`. -/
theorem range_filter_lt (m c : Nat) (hc : c ≤ m) :
    (List.range m).filter (fun k => decide (k < c)) = List.range c := by
  induction m with
  | zero =>
    have : c = 0 := by omega
    subst this; rfl
  | succ m ih =>
    rw [List.range_succ, List.filter_append]
    by_cases h : c ≤ m
    · rw [ih h]
      have : ¬ m < c := by omega
      simp [this]
    · have hcm : c = m + 1 := by omega
      subst hcm
      have h1 : (List.range m).filter (fun k => decide (k < m + 1)) = List.range m := by
        rw [List.filter_eq_self]
        intro a ha
        have := List.mem_range.mp ha
        simp; omega
      rw [h1, List.range_succ]
      simp

/-- The thresholds below a block size `B ≤ 1024` are the powers of two below
`B`, the largest first, and there are `ceil(log2 B)` of them. -/
theorem thresholds_below (B : Nat) (hB : B ≤ 1024) :
    thresholds.filter (fun h => decide (h < B))
      = ((List.range (Nat.clog 2 B)).map (fun k => 2 ^ k)).reverse := by
  have hth : thresholds = ((List.range 10).map (fun k => 2 ^ k)).reverse := by decide
  have hc : Nat.clog 2 B ≤ 10 := (Nat.le_pow_iff_clog_le (by decide)).mp (by norm_num; exact hB)
  have hp : ((fun h => decide (h < B)) ∘ fun k => 2 ^ k)
      = fun k => decide (k < Nat.clog 2 B) := by
    funext k
    simp only [Function.comp]
    congr 1
    exact propext (Nat.pow_lt_iff_lt_clog (by decide))
  rw [hth, List.filter_reverse, List.filter_map, hp, range_filter_lt 10 _ hc]

/-- Every buffer slot a guarded statement touches lies inside the block. -/
theorem lane_step_traced_bounds (op : Int → Int → Int) (B h i : Nat) (hi : i < B)
    (data : Buffer) (idx : Nat)
    (hidx : LaneEvent.read idx ∈ (lane_step_traced op B h i data).2 ∨
      LaneEvent.write idx ∈ (lane_step_traced op B h i data).2) : idx < B := by
  unfold lane_step_traced at hidx
  split at hidx
  · rename_i hg
    simp at hidx
    omega
  · simp at hidx

/-- Slots touched by a lane over a list of thresholds. -/
theorem access_bounds_fold (op : Int → Int → Int) (B i : Nat) (hi : i < B) :
    ∀ (ths : List Nat) (st : Buffer × List LaneEvent),
      (∀ idx, (LaneEvent.read idx ∈ st.2 ∨ LaneEvent.write idx ∈ st.2) → idx < B) →
      ∀ idx,
        (LaneEvent.read idx ∈ (ths.foldl
          (fun (st : Buffer × List LaneEvent) h =>
            if B > h then
              (block_step op B h st.1,
                st.2 ++ [LaneEvent.step h] ++ (lane_step_traced op B h i st.1).2
                  ++ [LaneEvent.barrier])
            else st) st).2 ∨
         LaneEvent.write idx ∈ (ths.foldl
          (fun (st : Buffer × List LaneEvent) h =>
            if B > h then
              (block_step op B h st.1,
                st.2 ++ [LaneEvent.step h] ++ (lane_step_traced op B h i st.1).2
                  ++ [LaneEvent.barrier])
            else st) st).2) → idx < B := by
  intro ths
  induction ths with
  | nil => intro st hst idx hidx; exact hst idx hidx
  | cons h hs ih =>
    intro st hst
    simp only [List.foldl_cons]
    apply ih
    by_cases hB : B > h
    · simp only [if_pos hB]
      intro idx hidx
      simp only [List.mem_append, List.mem_singleton] at hidx
      have hstep := lane_step_traced_bounds op B h i hi st.1 idx
      have hs := hst idx
      rcases hidx with ((((h1 | h1) | h1) | h1) | (((h1 | h1) | h1) | h1))
      · exact hs (Or.inl h1)
      · exact absurd h1 (by simp)
      · exact hstep (Or.inl h1)
      · exact absurd h1 (by simp)
      · exact hs (Or.inr h1)
      · exact absurd h1 (by simp)
      · exact hstep (Or.inr h1)
      · exact absurd h1 (by simp)
    · simp only [if_neg hB]
      exact hst

/-- C12: for `1 ≤ B ≤ 1024`, every lane of `rocsparse_blockreduce_sum` and of
`rocsparse_blockreduce_max` (`op` is `+` or `max`), whatever its index and
whatever the buffer holds, has the same control flow: one step ending in one
barrier for each power of two below `B`, the largest first, and nothing else.
The number of barriers is `ceil(log2 B)`. -/
theorem lane_control_flow_uniform (op : Int → Int → Int) (B i j : Nat) (data data2 : Buffer)
    (_h1 : 1 ≤ B) (h2 : B ≤ 1024) :
    control_flow (lane_kernel_trace op B i data)
      = steps_with_barriers (((List.range (Nat.clog 2 B)).map (fun k => 2 ^ k)).reverse) ∧
    control_flow (lane_kernel_trace op B j data2)
      = control_flow (lane_kernel_trace op B i data) ∧
    (lane_kernel_trace op B i data).countP (fun e => decide (e = LaneEvent.barrier))
      = Nat.clog 2 B ∧
    (∀ h, h ∈ ((List.range (Nat.clog 2 B)).map (fun k => 2 ^ k)).reverse
      ↔ (∃ k, h = 2 ^ k) ∧ h < B) ∧
    List.Sorted (fun a b => a > b) (((List.range (Nat.clog 2 B)).map (fun k => 2 ^ k)).reverse) := by
  have hcf : ∀ (l : Nat) (d : Buffer), control_flow (lane_kernel_trace op B l d)
      = steps_with_barriers (((List.range (Nat.clog 2 B)).map (fun k => 2 ^ k)).reverse) := by
    intro l d
    have h := control_flow_fold op B l thresholds (d, [])
    rw [thresholds_below B h2] at h
    simpa [lane_kernel_trace, lane_kernel_run, control_flow] using h
  refine ⟨hcf i data, ?_, ?_, ?_, ?_⟩
  · rw [hcf j data2, hcf i data]
  · have h := barrier_count_fold op B i thresholds (data, [])
    rw [thresholds_below B h2] at h
    simpa [lane_kernel_trace, lane_kernel_run] using h
  · intro h
    simp only [List.mem_reverse, List.mem_map, List.mem_range]
    constructor
    · rintro ⟨k, hk, rfl⟩
      exact ⟨⟨k, rfl⟩, (Nat.pow_lt_iff_lt_clog (by decide)).mpr hk⟩
    · rintro ⟨⟨k, rfl⟩, hlt⟩
      exact ⟨k, (Nat.pow_lt_iff_lt_clog (by decide)).mp hlt, rfl⟩
  · rw [← thresholds_below B h2]
    exact List.Sorted.filter _ (by decide)

/-- Witness of C12 at `B = 5`, lanes 0 and 3 of the sum kernel. -/
theorem lane_control_flow_uniform_witness :
    1 ≤ 5 ∧ 5 ≤ 1024 ∧
    control_flow (lane_kernel_trace (fun a b => a + b) 5 3 (fun l => (l : Int) + 1))
      = control_flow (lane_kernel_trace (fun a b => a + b) 5 0 (fun _ => 0)) ∧
    (lane_kernel_trace (fun a b => a + b) 5 0 (fun _ => 0)).countP
      (fun e => decide (e = LaneEvent.barrier)) = Nat.clog 2 5 :=
  have h := lane_control_flow_uniform (fun a b => a + b) 5 0 3 (fun _ => 0)
    (fun l => (l : Int) + 1) (by decide) (by decide)
  ⟨by decide, by decide, h.2.1, h.2.2.1⟩

/-- C13: in one step of the block kernels, the slot a lane writes is neither read
nor written by any other lane of the block. -/
theorem step_accesses_disjoint (op : Int → Int → Int) (B h i j : Nat) (data data2 : Buffer)
    (idx : Nat) (_hi : i < B) (_hj : j < B) (hij : i ≠ j)
    (hw : LaneEvent.write idx ∈ (lane_step_traced op B h i data).2) :
    LaneEvent.read idx ∉ (lane_step_traced op B h j data2).2 ∧
    LaneEvent.write idx ∉ (lane_step_traced op B h j data2).2 := by
  unfold lane_step_traced at hw ⊢
  split at hw
  · rename_i hg
    simp at hw
    subst hw
    split
    · rename_i hg2
      simp
      omega
    · simp
  · simp at hw

/-- Witness of C13 at `B = 8`, threshold 4, lanes 1 and 2: lane 1 writes slot 1. -/
theorem step_accesses_disjoint_witness :
    1 < 8 ∧ 2 < 8 ∧ 1 ≠ 2 ∧
    LaneEvent.write 1 ∈ (lane_step_traced (fun a b => a + b) 8 4 1 (fun _ => 0)).2 ∧
    LaneEvent.read 1 ∉ (lane_step_traced (fun a b => a + b) 8 4 2 (fun _ => 0)).2 ∧
    LaneEvent.write 1 ∉ (lane_step_traced (fun a b => a + b) 8 4 2 (fun _ => 0)).2 :=
  ⟨by decide, by decide, by decide, by decide,
    step_accesses_disjoint (fun a b => a + b) 8 4 1 2 (fun _ => 0) (fun _ => 0) 1
      (by decide) (by decide) (by decide) (by decide)⟩

/-- C14: for every block size `B ≥ 1` and every lane `i < B`, every buffer slot
the lane reads or writes in `rocsparse_blockreduce_sum` or
`rocsparse_blockreduce_max` (`op` is `+` or `max`) has an index below `B`. -/
theorem lane_accesses_in_bounds (op : Int → Int → Int) (B i : Nat) (data : Buffer)
    (idx : Nat) (_hB : 1 ≤ B) (hi : i < B)
    (hidx : LaneEvent.read idx ∈ lane_kernel_trace op B i data ∨
      LaneEvent.write idx ∈ lane_kernel_trace op B i data) : idx < B := by
  refine access_bounds_fold op B i hi thresholds (data, []) ?_ idx hidx
  intro k hk
  simp at hk

/-- Witness of C14 at `B = 5`, lane 0, which reads slot 4 in its first step. -/
theorem lane_accesses_in_bounds_witness :
    1 ≤ 5 ∧ 0 < 5 ∧
    (LaneEvent.read 4 ∈ lane_kernel_trace (fun a b => max a b) 5 0 (fun _ => 0) ∨
      LaneEvent.write 4 ∈ lane_kernel_trace (fun a b => max a b) 5 0 (fun _ => 0)) ∧
    4 < 5 :=
  ⟨by decide, by decide, Or.inl (by decide),
    lane_accesses_in_bounds (fun a b => max a b) 5 0 (fun _ => 0) 4 (by decide) (by decide)
      (Or.inl (by decide))⟩

/-! ## Atomic add: a call without contention -/

/-- C15: when no other writer changes the location during the call,
`rocsparse_atomic_add(ptr, val)` executes its loop body exactly once, whatever
bit pattern the location holds (the swap compares patterns, so it succeeds also
for a pattern that is not equal to itself as a float), and ends with the
location holding the pattern of `val` plus the value held before; that pattern is
the only thing written. The same holds in the system of threads when the call is
the only one: after its three accesses the thread has returned. -/
theorem atomic_add_alone (fadd : Nat → Nat → Nat) (val mem fuel : Nat) :
    rocsparse_atomic_add fadd val (fuel + 1) mem
      = some (fadd val mem, 1, [fadd val mem]) ∧
    run_schedule fadd val (AddSystem.start 1 mem) [0, 0, 0]
      = ⟨fadd val mem, [AddThread.returned]⟩ := by
  constructor
  · simp [rocsparse_atomic_add, atomic_add_iteration, atomicCAS]
  · rw [thread_runs_alone fadd val (AddSystem.start 1 mem) 0 rfl]
    rfl

/-! ## Register-shuffle codepath: windows -/

/-- Maximum of two adjacent windows of the same width. -/
theorem isMaxOfWindow_append (v : Regs) (b m : Nat) (s t : Int)
    (hs : IsMaxOfWindow v b m s) (ht : IsMaxOfWindow v (b + m) m t) :
    IsMaxOfWindow v b (m + m) (max s t) := by
  obtain ⟨hs1, js, hjs, hjs2⟩ := hs
  obtain ⟨ht1, jt, hjt, hjt2⟩ := ht
  constructor
  · intro j hj
    by_cases hjm : j < m
    · exact le_trans (hs1 j hjm) (le_max_left _ _)
    · have h := ht1 (j - m) (by omega)
      have e : b + m + (j - m) = b + j := by omega
      rw [e] at h
      exact le_trans h (le_max_right _ _)
  · rcases le_total s t with hst | hst
    · refine ⟨m + jt, by omega, ?_⟩
      rw [max_eq_right hst, ← hjt2]
      congr 1
      omega
    · exact ⟨js, by omega, by rw [max_eq_left hst, ← hjs2]⟩

/-- With loop variable 0 the maximum-only loop is over. -/
theorem wfreduce_max_only_loop_zero (fuel : Nat) (x : Regs) :
    NVCC.wfreduce_max_only_loop fuel 0 x = x := by
  cases fuel <;> simp [NVCC.wfreduce_max_only_loop]

/-- One iteration of the maximum-only loop. -/
theorem wfreduce_max_only_loop_succ (fuel i : Nat) (hi : 0 < i) (x : Regs) :
    NVCC.wfreduce_max_only_loop (fuel + 1) i x
      = NVCC.wfreduce_max_only_loop fuel (i / 2)
          (fun l => max (x l) (NVCC.shfl_down_sync x i l)) := by
  simp [NVCC.wfreduce_max_only_loop, hi, Nat.shiftRight_eq_div_pow]

/-- A window maximum of the registers after one exchange at distance `m` is a
window maximum over twice the width of the registers before it. -/
theorem isMaxOfWindow_after_exchange (x y : Regs) (l m : Nat) (r : Int)
    (hy : ∀ j, j < m → y (l + j) = max (x (l + j)) (x (l + j + m)))
    (hr : IsMaxOfWindow y l m r) : IsMaxOfWindow x l (m + m) r := by
  obtain ⟨h1, j0, hj0, hj02⟩ := hr
  constructor
  · intro j hj
    by_cases hjm : j < m
    · have := h1 j hjm
      rw [hy j hjm] at this
      exact le_trans (le_max_left _ _) this
    · have := h1 (j - m) (by omega)
      rw [hy (j - m) (by omega)] at this
      have e : l + (j - m) + m = l + j := by omega
      rw [e] at this
      exact le_trans (le_max_right _ _) this
  · rw [hy j0 hj0] at hj02
    rcases le_total (x (l + j0)) (x (l + j0 + m)) with h | h
    · rw [max_eq_right h] at hj02
      exact ⟨j0 + m, by omega, by rw [← hj02]; congr 1; omega⟩
    · rw [max_eq_left h] at hj02
      exact ⟨j0, by omega, hj02⟩

/-- Entered at a power of two `2^k`, the maximum-only loop leaves on every lane
`l` whose window `l .. l + 2^(k+1) - 1` lies inside the warp the maximum of that
window. -/
theorem wfreduce_max_only_loop_window : ∀ (k f : Nat) (x : Regs) (l : Nat),
    2 ^ k ≤ f → l + 2 ^ (k + 1) ≤ 32 →
    IsMaxOfWindow x l (2 ^ (k + 1)) (NVCC.wfreduce_max_only_loop f (2 ^ k) x l) := by
  intro k
  induction k with
  | zero =>
    intro f x l hf hl
    obtain ⟨f', rfl⟩ : ∃ f', f = f' + 1 := ⟨f - 1, by simp at hf; omega⟩
    rw [wfreduce_max_only_loop_succ f' _ (by decide)]
    have h0 : (2 ^ 0) / 2 = 0 := by decide
    rw [h0, wfreduce_max_only_loop_zero]
    have hl' : l + 1 < 32 := by simp at hl; omega
    have hin : l + 2 ^ 0 < NVCC.warpSize := by simp [NVCC.warpSize]; omega
    simp only [NVCC.shfl_down_sync, if_pos hin]
    have h1 : IsMaxOfWindow x l 1 (x l) :=
      ⟨fun j hj => by have : j = 0 := by omega
                      subst this; exact le_refl _, 0, by decide, rfl⟩
    have h2 : IsMaxOfWindow x (l + 1) 1 (x (l + 2 ^ 0)) :=
      ⟨fun j hj => by have : j = 0 := by omega
                      subst this; exact le_refl _, 0, by decide, rfl⟩
    exact isMaxOfWindow_append x l 1 _ _ h1 h2
  | succ k ih =>
    intro f x l hf hl
    have hpos : 0 < 2 ^ k := Nat.pow_pos (by decide)
    have hp1 : 2 ^ (k + 1) = 2 * 2 ^ k := by rw [pow_succ]; omega
    have hp2 : 2 ^ (k + 1 + 1) = 2 ^ (k + 1) + 2 ^ (k + 1) := by rw [pow_succ]; omega
    obtain ⟨f', rfl⟩ : ∃ f', f = f' + 1 := ⟨f - 1, by omega⟩
    rw [wfreduce_max_only_loop_succ f' _ (by omega)]
    have hhalf : 2 ^ (k + 1) / 2 = 2 ^ k := by omega
    rw [hhalf, hp2]
    apply isMaxOfWindow_after_exchange x _ l (2 ^ (k + 1)) _ ?_
      (ih f' _ l (by omega) (by omega))
    intro j hj
    have hin : l + j + 2 ^ (k + 1) < NVCC.warpSize := by simp only [NVCC.warpSize]; omega
    simp only [NVCC.shfl_down_sync, if_pos hin]

/-- Shuffle codepath, every supported width: lane `l` with `l + W ≤ 32` ends the
maximum-only reduction with the maximum of the lanes `l .. l + W - 1`. -/
theorem wfreduce_max_only_window (W : Nat) (hW : W ∈ [1, 2, 4, 8, 16, 32]) (v : Regs) (l : Nat)
    (hl : l + W ≤ 32) : IsMaxOfWindow v l W (NVCC.wfreduce_max_only W v l) := by
  simp only [List.mem_cons, List.mem_singleton, List.not_mem_nil, or_false] at hW
  rcases hW with rfl | rfl | rfl | rfl | rfl | rfl
  · refine ⟨fun j hj => ?_, 0, by decide, ?_⟩
    · have : j = 0 := by omega
      subst this
      simp [NVCC.wfreduce_max_only, NVCC.wfreduce_max_only_loop]
    · simp [NVCC.wfreduce_max_only, NVCC.wfreduce_max_only_loop]
  · exact wfreduce_max_only_loop_window 0 _ v l (by decide) hl
  · exact wfreduce_max_only_loop_window 1 _ v l (by decide) hl
  · exact wfreduce_max_only_loop_window 2 _ v l (by decide) hl
  · exact wfreduce_max_only_loop_window 3 _ v l (by decide) hl
  · exact wfreduce_max_only_loop_window 4 _ v l (by decide) hl

/-- A power of two of at most 32 is one of the supported widths. -/
theorem pow2_le_32 (W : Nat) (hW : ∃ k, W = 2 ^ k) (h32 : W ≤ 32) :
    W ∈ [1, 2, 4, 8, 16, 32] := by
  obtain ⟨k, rfl⟩ := hW
  have hk : k < 6 := by
    by_contra hc
    have := Nat.pow_le_pow_right (show 0 < 2 by decide) (Nat.le_of_not_lt hc)
    omega
  interval_cases k <;> decide

/-- C16: on the register-shuffle codepath, for every power-of-two width
`W ≤ 32` and every assignment of integers to the 32 lanes, every lane `l` with
`l + W ≤ 32` ends `rocsparse_wfreduce_sum<W>` with `v_l + ... + v_(l+W-1)` and
ends `rocsparse_wfreduce_sum_max<W>` with that sum and with the maximum of
`m_l, ..., m_(l+W-1)`; in particular (`l = g * W`) the first lane of each aligned
group holds the sum and the maximum of its group. -/
theorem wfreduce_shuffle_windows (W : Nat) (v m : Regs) (l g : Nat)
    (hW : ∃ k, W = 2 ^ k) (h32 : W ≤ 32) (hl : l + W ≤ 32) (hg : g * W + W ≤ 32) :
    NVCC.rocsparse_wfreduce_sum W v l = ∑ j in Finset.range W, v (l + j) ∧
    (NVCC.rocsparse_wfreduce_sum_max W v m).1 l = ∑ j in Finset.range W, v (l + j) ∧
    (∀ j, j < W → m (l + j) ≤ (NVCC.rocsparse_wfreduce_sum_max W v m).2 l) ∧
    (∃ j, j < W ∧ m (l + j) = (NVCC.rocsparse_wfreduce_sum_max W v m).2 l) ∧
    (NVCC.rocsparse_wfreduce_sum_max W v m).1 (g * W)
      = ∑ j in Finset.range W, v (g * W + j) ∧
    (∀ j, j < W → m (g * W + j) ≤ (NVCC.rocsparse_wfreduce_sum_max W v m).2 (g * W)) ∧
    (∃ j, j < W ∧ m (g * W + j) = (NVCC.rocsparse_wfreduce_sum_max W v m).2 (g * W)) := by
  have hmem := pow2_le_32 W hW h32
  have e1 : (NVCC.rocsparse_wfreduce_sum_max W v m).1 = NVCC.rocsparse_wfreduce_sum W v := by
    simp only [NVCC.rocsparse_wfreduce_sum_max, NVCC.rocsparse_wfreduce_sum,
      wfreduce_sum_max_loop_fst]
  have e2 : (NVCC.rocsparse_wfreduce_sum_max W v m).2 = NVCC.wfreduce_max_only W m := by
    simp only [NVCC.rocsparse_wfreduce_sum_max, NVCC.wfreduce_max_only,
      wfreduce_sum_max_loop_snd]
  have hs := wfreduce_sum_window W hmem v
  have hm := wfreduce_max_only_window W hmem m
  rw [e1, e2]
  exact ⟨hs l hl, hs l hl, (hm l hl).1, (hm l hl).2, hs (g * W) hg,
    (hm (g * W) hg).1, (hm (g * W) hg).2⟩

/-- Witness of C16 at `W = 4`, lane 5 and group 3. -/
theorem wfreduce_shuffle_windows_witness :
    (∃ k, 4 = 2 ^ k) ∧ 4 ≤ 32 ∧ 5 + 4 ≤ 32 ∧ 3 * 4 + 4 ≤ 32 ∧
    NVCC.rocsparse_wfreduce_sum 4 (fun l => (l : Int)) 5
      = ∑ j in Finset.range 4, ((5 + j : Nat) : Int) :=
  ⟨⟨2, by decide⟩, by decide, by decide, by decide,
    (wfreduce_shuffle_windows 4 (fun l => (l : Int)) (fun l => 31 - (l : Int)) 5 3
      ⟨2, by decide⟩ (by decide) (by decide) (by decide)).1⟩

/-! ## DPP codepath: the last lane of each group -/

/-- Step `row_shr:1`: every odd lane is written and reads the lane before it. -/
theorem dpp_partner_shr1 : ∀ l, l < 64 → l % 2 = 1 →
    (Nat.testBit 0xf (l / 16) = true ∧ Nat.testBit 0xf (l % 16 / 4) = true) ∧
    HCC.dpp_src 0x111 l = some (l - 1) := by decide

/-- Step `row_shr:2`: the last lane of every group of 4 reads the lane 2 before. -/
theorem dpp_partner_shr2 : ∀ l, l < 64 → l % 4 = 3 →
    (Nat.testBit 0xf (l / 16) = true ∧ Nat.testBit 0xf (l % 16 / 4) = true) ∧
    HCC.dpp_src 0x112 l = some (l - 2) := by decide

/-- Step `row_shr:4` with bank mask `0xe`: the last lane of every group of 8 reads
the lane 4 before. -/
theorem dpp_partner_shr4 : ∀ l, l < 64 → l % 8 = 7 →
    (Nat.testBit 0xf (l / 16) = true ∧ Nat.testBit 0xe (l % 16 / 4) = true) ∧
    HCC.dpp_src 0x114 l = some (l - 4) := by decide

/-- Step `row_shr:8` with bank mask `0xc`: the last lane of every row reads the
lane 8 before. -/
theorem dpp_partner_shr8 : ∀ l, l < 64 → l % 16 = 15 →
    (Nat.testBit 0xf (l / 16) = true ∧ Nat.testBit 0xc (l % 16 / 4) = true) ∧
    HCC.dpp_src 0x118 l = some (l - 8) := by decide

/-- Step `row_bcast15` with row mask `0xa`: lanes 31 and 63 read the last lane of
the row before. -/
theorem dpp_partner_bcast15 : ∀ l, l < 64 → l % 32 = 31 →
    (Nat.testBit 0xa (l / 16) = true ∧ Nat.testBit 0xf (l % 16 / 4) = true) ∧
    HCC.dpp_src 0x142 l = some (l - 16) := by decide

/-- Step `row_bcast31` with row mask `0xc`: lane 63 reads lane 31. -/
theorem dpp_partner_bcast31 : ∀ l, l < 64 → l % 64 = 63 →
    (Nat.testBit 0xc (l / 16) = true ∧ Nat.testBit 0xf (l % 16 / 4) = true) ∧
    HCC.dpp_src 0x143 l = some (l - 32) := by decide

/-- A written lane with an existing source lane receives the source's register,
whatever the unwritten lanes yield. -/
theorem hip_move_dpp_partner (undef x : Regs) (ctrl rm bm l p : Nat)
    (h : (Nat.testBit rm (l / 16) = true ∧ Nat.testBit bm (l % 16 / 4) = true) ∧
      HCC.dpp_src ctrl l = some p) :
    HCC.hip_move_dpp undef x ctrl rm bm l = x p := by
  simp only [HCC.hip_move_dpp, if_pos h.1, h.2]

/-- One guarded DPP block, seen from the last lanes of the groups: when the last
lane of every group of `m` lanes holds the reduction of its group, and the block
combines the last lane of every group of `2m` lanes with the lane `m` before it,
then the last lane of every group of `2m` lanes holds the reduction of its
group. `R b w s` says that `s` is the reduction of the lanes `b .. b + w - 1`. -/
theorem dpp_stage (op : Int → Int → Int) (R : Nat → Nat → Int → Prop)
    (hcomb : ∀ b m s t, R b m s → R (b + m) m t → R b (m + m) (op t s))
    (m m2 : Nat) (hm : m2 = m + m)
    (hgeo : ∀ l, l < 64 → l % m2 = m2 - 1 →
      l % m = m - 1 ∧ (l - m) % m = m - 1 ∧ m2 ≤ l + 1)
    (undef x : Regs) (ctrl rm bm : Nat)
    (hpart : ∀ l, l < 64 → l % m2 = m2 - 1 →
      (Nat.testBit rm (l / 16) = true ∧ Nat.testBit bm (l % 16 / 4) = true) ∧
      HCC.dpp_src ctrl l = some (l - m))
    (hx : ∀ l, l < 64 → l % m = m - 1 → R (l + 1 - m) m (x l)) :
    ∀ l, l < 64 → l % m2 = m2 - 1 →
      R (l + 1 - m2) m2 (op (x l) (HCC.hip_move_dpp undef x ctrl rm bm l)) := by
  subst hm
  intro l hl hmod
  obtain ⟨g1, g2, g3⟩ := hgeo l hl hmod
  rw [hip_move_dpp_partner undef x ctrl rm bm l (l - m) (hpart l hl hmod)]
  have hup := hx l hl g1
  have hlo := hx (l - m) (by omega) g2
  have e1 : l - m + 1 - m = l + 1 - (m + m) := by omega
  have e2 : l + 1 - m = (l + 1 - (m + m)) + m := by omega
  rw [e1] at hlo
  rw [e2] at hup
  exact hcomb _ _ _ _ hlo hup

/-- A guarded DPP block that is skipped keeps what the last lanes hold. -/
theorem dpp_stage_guarded (op : Int → Int → Int) (R : Nat → Nat → Int → Prop)
    (hcomb : ∀ b m s t, R b m s → R (b + m) m t → R b (m + m) (op t s))
    (m m2 : Nat) (hm : m2 = m + m)
    (hgeo : ∀ l, l < 64 → l % m2 = m2 - 1 →
      l % m = m - 1 ∧ (l - m) % m = m - 1 ∧ m2 ≤ l + 1)
    (undef x : Regs) (ctrl rm bm : Nat)
    (hpart : ∀ l, l < 64 → l % m2 = m2 - 1 →
      (Nat.testBit rm (l / 16) = true ∧ Nat.testBit bm (l % 16 / 4) = true) ∧
      HCC.dpp_src ctrl l = some (l - m))
    (hx : ∀ l, l < 64 → l % m = m - 1 → R (l + 1 - m) m (x l)) (c : Prop) [Decidable c]
    (hc : c) :
    ∀ l, l < 64 → l % m2 = m2 - 1 →
      R (l + 1 - m2) m2
        ((if c then (fun l => op (x l) (HCC.hip_move_dpp undef x ctrl rm bm l)) else x) l) := by
  intro l hl hmod
  rw [if_pos hc]
  exact dpp_stage op R hcomb m m2 hm hgeo undef x ctrl rm bm hpart hx l hl hmod

/-- The single-accumulator DPP reduction leaves on the last lane of every aligned
group of `W` lanes the reduction of that group, whatever the unwritten lanes
yield. `R b w s` says that `s` is the reduction of the lanes `b .. b + w - 1`. -/
theorem dpp_only_last_lane (op : Int → Int → Int) (R : Nat → Nat → Int → Prop) (v : Regs)
    (hbase : ∀ l, R l 1 (v l))
    (hcomb : ∀ b m s t, R b m s → R (b + m) m t → R b (m + m) (op t s))
    (W : Nat) (hW : W ∈ [1, 2, 4, 8, 16, 32, 64]) (undef : Nat → Regs) (l : Nat)
    (hl : l < 64) (hmod : l % W = W - 1) :
    R (l + 1 - W) W (HCC.wfreduce_dpp_only op W undef v l) := by
  have s0 : ∀ l, l < 64 → l % 1 = 1 - 1 → R (l + 1 - 1) 1 (v l) := by
    intro l _ _
    have := hbase l
    simpa using this
  have s1 := dpp_stage op R hcomb 1 2 rfl (by intro l _ _; omega) (undef 0) v
    0x111 0xf 0xf dpp_partner_shr1 s0
  have s2 := dpp_stage op R hcomb 2 4 rfl (by intro l _ _; omega) (undef 1) _
    0x112 0xf 0xf dpp_partner_shr2 s1
  have s3 := dpp_stage op R hcomb 4 8 rfl (by intro l _ _; omega) (undef 2) _
    0x114 0xf 0xe dpp_partner_shr4 s2
  have s4 := dpp_stage op R hcomb 8 16 rfl (by intro l _ _; omega) (undef 3) _
    0x118 0xf 0xc dpp_partner_shr8 s3
  have s5 := dpp_stage op R hcomb 16 32 rfl (by intro l _ _; omega) (undef 4) _
    0x142 0xa 0xf dpp_partner_bcast15 s4
  have s6 := dpp_stage op R hcomb 32 64 rfl (by intro l _ _; omega) (undef 5) _
    0x143 0xc 0xf dpp_partner_bcast31 s5
  simp only [List.mem_cons, List.mem_singleton, List.not_mem_nil, or_false] at hW
  rcases hW with rfl | rfl | rfl | rfl | rfl | rfl | rfl
  · exact s0 l hl hmod
  · exact s1 l hl hmod
  · exact s2 l hl hmod
  · exact s3 l hl hmod
  · exact s4 l hl hmod
  · exact s5 l hl hmod
  · exact s6 l hl hmod

/-- The sum accumulator of the DPP reduction is the sum-only DPP reduction. -/
theorem dpp_sum_max_fst (W : Nat) (us um : Nat → Regs) (s m : Regs) :
    (HCC.rocsparse_wfreduce_sum_max W us um s m).1
      = HCC.wfreduce_dpp_only (fun a b => a + b) W us s := by
  simp only [HCC.rocsparse_wfreduce_sum_max, HCC.wfreduce_dpp_only, dpp_guarded_fst]

/-- The maximum accumulator of the DPP reduction is the maximum-only DPP
reduction. -/
theorem dpp_sum_max_snd (W : Nat) (us um : Nat → Regs) (s m : Regs) :
    (HCC.rocsparse_wfreduce_sum_max W us um s m).2
      = HCC.wfreduce_dpp_only (fun a b => max a b) W um m := by
  simp only [HCC.rocsparse_wfreduce_sum_max, HCC.wfreduce_dpp_only, dpp_guarded_snd]

/-- The last lane of the aligned group `g` of width `W` inside the wavefront. -/
theorem last_lane_of_group (W : Nat) (hW : W ∈ [1, 2, 4, 8, 16, 32, 64]) (g : Nat)
    (hg : g * W + W ≤ 64) :
    g * W + W - 1 < 64 ∧ (g * W + W - 1) % W = W - 1 ∧ g * W + W - 1 + 1 - W = g * W := by
  simp only [List.mem_cons, List.mem_singleton, List.not_mem_nil, or_false] at hW
  rcases hW with rfl | rfl | rfl | rfl | rfl | rfl | rfl <;> omega

/-- C17: on the DPP codepath, for every width `W ∈ {1, 2, 4, 8, 16, 32, 64}` and
every assignment of integer (sum, maximum) pairs to the 64 lanes, the last lane
`g * W + W - 1` of each aligned `W`-lane group ends `rocsparse_wfreduce_sum_max<W>`
holding the sum of the group's `W` sums and the maximum of its `W` maxima,
whatever `__hip_move_dpp` yields on the lanes it does not write. -/
theorem wfreduce_sum_max_dpp_last_lane (W : Nat) (undef_sum undef_max : Nat → Regs)
    (sum maximum : Regs) (g : Nat)
    (hW : W ∈ [1, 2, 4, 8, 16, 32, 64]) (hg : g * W + W ≤ 64) :
    (HCC.rocsparse_wfreduce_sum_max W undef_sum undef_max sum maximum).1 (g * W + W - 1)
      = ∑ j in Finset.range W, sum (g * W + j) ∧
    (∀ j, j < W → maximum (g * W + j)
      ≤ (HCC.rocsparse_wfreduce_sum_max W undef_sum undef_max sum maximum).2 (g * W + W - 1)) ∧
    ∃ j, j < W ∧ maximum (g * W + j)
      = (HCC.rocsparse_wfreduce_sum_max W undef_sum undef_max sum maximum).2 (g * W + W - 1) := by
  obtain ⟨hl, hmod, hbase⟩ := last_lane_of_group W hW g hg
  rw [dpp_sum_max_fst, dpp_sum_max_snd]
  have hs := dpp_only_last_lane (fun a b => a + b)
    (fun b w s => s = ∑ j in Finset.range w, sum (b + j)) sum
    (by intro l; simp)
    (by
      intro b m s t hs ht
      have hshift : ∑ j in Finset.range m, sum (b + m + j)
          = ∑ j in Finset.range m, sum (b + (m + j)) :=
        Finset.sum_congr rfl (fun j _ => by rw [Nat.add_assoc])
      simp only [hs, ht]
      rw [Finset.sum_range_add, hshift, add_comm])
    W hW undef_sum (g * W + W - 1) hl hmod
  have hm := dpp_only_last_lane (fun a b => max a b)
    (fun b w s => IsMaxOfWindow maximum b w s) maximum
    (by
      intro l
      refine ⟨fun j hj => ?_, 0, by decide, rfl⟩
      have : j = 0 := by omega
      subst this
      exact le_refl _)
    (by
      intro b m s t hs ht
      have := isMaxOfWindow_append maximum b m s t hs ht
      rw [max_comm] at this
      exact this)
    W hW undef_max (g * W + W - 1) hl hmod
  rw [hbase] at hs hm
  exact ⟨hs, hm.1, hm.2⟩

/-- Witness of C17 at `W = 16`, group 2 (lanes 32..47, last lane 47), with 1000 and
-5 on the unwritten lanes. -/
theorem wfreduce_sum_max_dpp_last_lane_witness :
    16 ∈ [1, 2, 4, 8, 16, 32, 64] ∧ 2 * 16 + 16 ≤ 64 ∧
    (HCC.rocsparse_wfreduce_sum_max 16 (fun _ _ => 1000) (fun _ _ => -5)
        (fun l => (l : Int)) (fun l => 63 - (l : Int))).1 (2 * 16 + 16 - 1)
      = ∑ j in Finset.range 16, ((2 * 16 + j : Nat) : Int) :=
  ⟨by decide, by decide,
    (wfreduce_sum_max_dpp_last_lane 16 (fun _ _ => 1000) (fun _ _ => -5)
      (fun l => (l : Int)) (fun l => 63 - (l : Int)) 2 (by decide) (by decide)).1⟩

/-! ## Swizzle codepath at width 64 -/

/-- At width 64 the last step adds, on every lane, what lane 32 holds after the
five swizzle steps. -/
theorem wfreduce_sum_float_64 {α : Type} [AddCommMonoid α] (v : Nat → α) (l : Nat) :
    HCC.rocsparse_wfreduce_sum_float 64 v l
      = HCC.rocsparse_wfreduce_sum_float 32 v l + HCC.rocsparse_wfreduce_sum_float 32 v 32 :=
  rfl

/-- One guarded block of the reduction on whole patterns, when patterns encode
values and the addition on patterns is the addition of the values. -/
theorem whole_pattern_stage {α : Type} [AddCommMonoid α] (enc : α → Nat)
    (fadd : Nat → Nat → Nat) (hexact : ∀ a b, fadd (enc a) (enc b) = enc (a + b))
    (c : Prop) [Decidable c] (src : Nat → Nat) (x : Nat → Nat) (y : Nat → α)
    (hx : x = fun l => enc (y l)) :
    (if c then (fun l => fadd (x l) (x (src l))) else x)
      = fun l => enc ((if c then (fun l => y l + y (src l)) else y) l) := by
  subst hx
  by_cases hc : c
  · simp only [if_pos hc, hexact]
  · simp only [if_neg hc]

/-- The reduction on whole patterns computes the pattern of what the reduction on
values computes. -/
theorem whole_pattern_eq_float {α : Type} [AddCommMonoid α] (enc : α → Nat)
    (fadd : Nat → Nat → Nat) (hexact : ∀ a b, fadd (enc a) (enc b) = enc (a + b))
    (W : Nat) (v : Nat → α) (l : Nat) :
    HCC.wfreduce_sum_whole_pattern fadd W (fun k => enc (v k)) l
      = enc (HCC.rocsparse_wfreduce_sum_float W v l) := by
  have e1 := whole_pattern_stage enc fadd hexact (W > 1) (HCC.ds_swizzle_src 0x80b1)
    (fun k => enc (v k)) v rfl
  have e2 := whole_pattern_stage enc fadd hexact (W > 2) (HCC.ds_swizzle_src 0x804e) _ _ e1
  have e3 := whole_pattern_stage enc fadd hexact (W > 4) (HCC.ds_swizzle_src 0x101f) _ _ e2
  have e4 := whole_pattern_stage enc fadd hexact (W > 8) (HCC.ds_swizzle_src 0x201f) _ _ e3
  have e5 := whole_pattern_stage enc fadd hexact (W > 16) (HCC.ds_swizzle_src 0x401f) _ _ e4
  have e6 := whole_pattern_stage enc fadd hexact (W > 32) (fun _ => 32) _ _ e5
  exact congrFun e6 l

/-- At width 64 and with exact addition, the lanes `0 .. 31` return the sum of all
64 values and the lanes `32 .. 63` return twice the sum of the lanes `32 .. 63`. -/
theorem wfreduce_sum_float_64_halves {α : Type} [AddCommMonoid α] (v : Nat → α) (l : Nat) :
    (l < 32 → HCC.rocsparse_wfreduce_sum_float 64 v l = ∑ j in Finset.range 64, v j) ∧
    (32 ≤ l → l < 64 → HCC.rocsparse_wfreduce_sum_float 64 v l
      = (∑ j in Finset.range 32, v (32 + j)) + (∑ j in Finset.range 32, v (32 + j))) := by
  have h32 : ∀ l, HCC.rocsparse_wfreduce_sum_float 32 v l
      = ∑ j in Finset.range 32, v (l / 32 * 32 + j) :=
    wfreduce_sum_float_group 32 (by decide) v
  refine ⟨?_, ?_⟩
  · intro hlow
    have e0 : l / 32 * 32 = 0 := by omega
    rw [wfreduce_sum_float_64, h32 l, h32 32, e0,
      show 64 = 32 + 32 from rfl, Finset.sum_range_add]
    simp
  · intro hhigh hl
    have e1 : l / 32 * 32 = 32 := by omega
    rw [wfreduce_sum_float_64, h32 l, h32 32, e1]

/-- C18: on the swizzle codepath with `WFSIZE = 64` and exact addition,
`rocsparse_wfreduce_sum<64>` returns the sum of all 64 values on the lanes
`0 .. 31`, and on the lanes `32 .. 63` it returns twice the sum of the values of
the lanes `32 .. 63`, because the last step adds what lane 32 holds on every
lane. The double overload, which moves the two halves of each pattern
separately, returns the pattern of the same value. So only the lower 32 lanes
hold the full reduction: with `v_l = l` lane 40 returns 3040 while the sum of all
lanes is 2016. -/
theorem wfreduce_sum_swizzle_64 {α : Type} [AddCommMonoid α] (v : Nat → α) (l : Nat)
    (enc : α → Nat) (fadd : Nat → Nat → Nat)
    (hl : l < 64) (henc : ∀ a, enc a < 2 ^ 64) (hfadd : ∀ a b, fadd a b < 2 ^ 64)
    (hexact : ∀ a b, fadd (enc a) (enc b) = enc (a + b)) :
    (l < 32 → HCC.rocsparse_wfreduce_sum_float 64 v l = ∑ j in Finset.range 64, v j) ∧
    (32 ≤ l → HCC.rocsparse_wfreduce_sum_float 64 v l
      = (∑ j in Finset.range 32, v (32 + j)) + (∑ j in Finset.range 32, v (32 + j))) ∧
    HCC.rocsparse_wfreduce_sum_double fadd 64 (fun k => enc (v k)) l
      = enc (HCC.rocsparse_wfreduce_sum_float 64 v l) ∧
    HCC.rocsparse_wfreduce_sum_float 64 (fun k => (k : Int)) 40 = 3040 ∧
    ∑ j in Finset.range 64, (j : Int) = 2016 := by
  refine ⟨(wfreduce_sum_float_64_halves v l).1,
    fun h => (wfreduce_sum_float_64_halves v l).2 h hl, ?_, ?_, ?_⟩
  · rw [wfreduce_sum_double_eq_whole fadd 64 _ (fun k => henc _) hfadd l]
    exact whole_pattern_eq_float enc fadd hexact 64 v l
  · rw [(wfreduce_sum_float_64_halves (fun k => (k : Int)) 40).2 (by decide) (by decide)]
    decide
  · decide

/-- Witness of C18 on lane 40, with natural numbers below `2^64` as values and as
patterns. -/
theorem wfreduce_sum_swizzle_64_witness :
    40 < 64 ∧ (∀ a : Nat, (fun a => a % 2 ^ 64) a < 2 ^ 64) ∧
    (32 ≤ 40 → HCC.rocsparse_wfreduce_sum_float 64 (fun l => l) 40
      = (∑ j in Finset.range 32, (32 + j)) + (∑ j in Finset.range 32, (32 + j))) :=
  ⟨by decide, fun a => Nat.mod_lt _ (by decide),
    (wfreduce_sum_swizzle_64 (fun l => l) 40 (fun a => a % 2 ^ 64)
      (fun a b => (a + b) % 2 ^ 64) (by decide) (fun a => Nat.mod_lt _ (by decide))
      (fun a b => Nat.mod_lt _ (by decide))
      (fun a b => by simp [Nat.add_mod])).2.1⟩

/-! ## Block sizes above 1024 -/

/-- C19: for every block size `B > 1024`, `rocsparse_blockreduce_sum` leaves in
`data[0]` the sum of the initial `data[0..1023]` and `rocsparse_blockreduce_max`
their maximum; buffers that agree on the slots `0 .. 1023` give the same result;
some buffer has a sum and a maximum over `0 .. B-1` that the kernels miss; and
every block size from 1 to 1024 covers its whole buffer. -/
theorem blockreduce_above_1024 (B : Nat) (data data2 : Buffer) (hB : 1024 < B) :
    rocsparse_blockreduce_sum B data 0 = ∑ i in Finset.range 1024, data i ∧
    ((∀ i, i < 1024 → data i ≤ rocsparse_blockreduce_max B data 0) ∧
      ∃ j, j < 1024 ∧ data j = rocsparse_blockreduce_max B data 0) ∧
    ((∀ i, i < 1024 → data2 i = data i) →
      rocsparse_blockreduce_sum B data2 0 = rocsparse_blockreduce_sum B data 0 ∧
      rocsparse_blockreduce_max B data2 0 = rocsparse_blockreduce_max B data 0) ∧
    (∃ d : Buffer, rocsparse_blockreduce_sum B d 0 ≠ ∑ i in Finset.range B, d i ∧
      ¬ (∀ i, i < B → d i ≤ rocsparse_blockreduce_max B d 0)) ∧
    (∀ (B2 : Nat) (d : Buffer), 1 ≤ B2 → B2 ≤ 1024 →
      rocsparse_blockreduce_sum B2 d 0 = ∑ i in Finset.range B2, d i ∧
      IsMaxOfFirst B2 d (rocsparse_blockreduce_max B2 d 0)) := by
  have hmin : min B 1024 = 1024 := by omega
  have hsum : ∀ d : Buffer, rocsparse_blockreduce_sum B d 0
      = ∑ i in Finset.range 1024, d i := by
    intro d
    rw [blockreduce_sum_covers B (by omega) d, hmin]
  have hmax : ∀ d : Buffer, IsMaxOfFirst 1024 d (rocsparse_blockreduce_max B d 0) := by
    intro d
    obtain ⟨t, ht⟩ := exists_isMaxOfFirst 1024 (by decide) d
    have hr : rocsparse_blockreduce_max B d 0 = t :=
      blockreduce_max_covers B (by omega) d t (by rw [hmin]; exact ht)
    rw [hr]; exact ht
  refine ⟨hsum data, hmax data, ?_, ?_, ?_⟩
  · intro hagree
    constructor
    · rw [hsum data2, hsum data]
      exact Finset.sum_congr rfl (fun i hi => hagree i (Finset.mem_range.mp hi))
    · apply isMaxOfFirst_unique 1024 data _ _ _ (hmax data)
      obtain ⟨h1, j, hj, hj2⟩ := hmax data2
      exact ⟨fun i hi => hagree i hi ▸ h1 i hi, j, hj, hagree j hj ▸ hj2⟩
  · refine ⟨fun i => if i = 1024 then 1 else 0, ?_, ?_⟩
    · rw [hsum]
      have hz : ∑ i in Finset.range 1024, (fun i => if i = 1024 then (1 : Int) else 0) i = 0 := by
        apply Finset.sum_eq_zero
        intro i hi
        have := Finset.mem_range.mp hi
        simp; omega
      have ho : ∑ i in Finset.range B, (fun i => if i = 1024 then (1 : Int) else 0) i = 1 := by
        rw [Finset.sum_eq_single 1024]
        · simp
        · intro b _ hb; simp [hb]
        · intro h; exact absurd (Finset.mem_range.mpr hB) h
      rw [hz, ho]
      decide
    · intro hall
      obtain ⟨_, j, hj, hj2⟩ := hmax (fun i => if i = 1024 then 1 else 0)
      have h1 := hall 1024 hB
      rw [← hj2] at h1
      have hjne : ¬ j = 1024 := by omega
      simp [hjne] at h1
  · intro B2 d h1 h2
    have hmin2 : min B2 1024 = B2 := by omega
    constructor
    · rw [blockreduce_sum_covers B2 h1 d, hmin2]
    · obtain ⟨t, ht⟩ := exists_isMaxOfFirst B2 h1 d
      have hr : rocsparse_blockreduce_max B2 d 0 = t :=
        blockreduce_max_covers B2 h1 d t (by rw [hmin2]; exact ht)
      rw [hr]; exact ht

/-- Witness of C19 at `B = 1025` and `data[i] = i`. -/
theorem blockreduce_above_1024_witness :
    1024 < 1025 ∧
    rocsparse_blockreduce_sum 1025 (fun i => (i : Int)) 0
      = ∑ i in Finset.range 1024, (i : Int) :=
  ⟨by decide,
    (blockreduce_above_1024 1025 (fun i => (i : Int)) (fun _ => 0) (by decide)).1⟩

/-! ## Combined reduction against the single-purpose reductions -/

end RocSparse
